import Mathlib

/-!
# contramind-pilot: a shallow embedding of the decision core

This file embeds the decision core of the `contramind-pilot` repository in
Lean 4 and proves properties of that embedding.  The embedded pieces are:

* the JSON value model and the two canonical serializers used by the system
  (`orjson` with `OPT_SORT_KEYS` in the decision engine, stdlib `json` with
  `sort_keys=True, separators=(",", ":")` in the attestor and tools);
* base64url (unpadded) encoding and decoding, and JWS compact
  signing/verification as implemented by `services/attestor/app.py`;
* the decision engine `decide` operation of `services/decider/app.py`,
  including its idempotency lookup, one-bit-oracle resolution, bundle
  construction, raw signature, `proof_id`, JWS certificate and the
  ledger/idempotency commit;
* the anchor worker of `services/anchor/anchor.py` (its Merkle computation
  and its range selection);
* the argument extraction of `tools/replay.py`.

Modelling conventions.  Byte strings and Unicode code-point strings are both
`List Nat` (`Bytes`); the development is parametric in a `Crypto` record
whose `sha256hex` field stands for `hashlib.sha256(x).hexdigest()` and whose
`edSign` field stands for a detached deterministic Ed25519 signature
(`nacl.signing.SigningKey.sign(m).signature`); signature verification is
modelled symbolically as recomputation, so unforgeability facts take the
injectivity of `edSign` in the message as an explicit hypothesis.  JSON
numbers are modelled as integers: none of the properties proved here depend
on the textual rendering of non-integral floats.  The SQL policy kernel
`cm.decide_json` is not part of the source tree; it is modelled from the
specification and marked as such.
-/

set_option maxHeartbeats 1000000
set_option maxRecDepth 100000

namespace ContraMind

/-- Byte strings / code-point strings. -/
abbrev Bytes := List Nat

/-- Bytes of an ASCII Lean string literal (used only to write constants). -/
def bs (s : String) : Bytes := s.data.map Char.toNat

/-- JSON values, as produced by `json.loads` / passed to `json.dumps`.
Numbers are modelled as integers (see the file header). -/
inductive Jv where
  | null : Jv
  | bool : Bool → Jv
  | num : Int → Jv
  | str : Bytes → Jv
  | arr : List Jv → Jv
  | obj : List (Bytes × Jv) → Jv

mutual
/-- Structural equality test for `Jv` (deriving fails on the nested type). -/
def beqJv : Jv → Jv → Bool
  | .null, .null => true
  | .bool a, .bool b => a == b
  | .num a, .num b => a == b
  | .str a, .str b => a == b
  | .arr a, .arr b => beqL a b
  | .obj a, .obj b => beqM a b
  | _, _ => false
def beqL : List Jv → List Jv → Bool
  | [], [] => true
  | a :: as_, b :: bs_ => beqJv a b && beqL as_ bs_
  | _, _ => false
def beqM : List (Bytes × Jv) → List (Bytes × Jv) → Bool
  | [], [] => true
  | (k, v) :: as_, (k2, v2) :: bs_ => k == k2 && beqJv v v2 && beqM as_ bs_
  | _, _ => false
end

theorem beqL_iff (l m : List Jv) (h : ∀ x ∈ l, ∀ b, (beqJv x b = true ↔ x = b)) :
    (beqL l m = true ↔ l = m) := by
  induction l generalizing m with
  | nil => cases m <;> simp [beqL]
  | cons a as_ ih =>
    cases m with
    | nil => simp [beqL]
    | cons b bs_ =>
      simp only [beqL, Bool.and_eq_true, List.cons.injEq]
      rw [h a (by simp), ih _ (fun x hx => h x (by simp [hx]))]

theorem beqM_iff (l m : List (Bytes × Jv)) (h : ∀ x ∈ l, ∀ b, (beqJv x.2 b = true ↔ x.2 = b)) :
    (beqM l m = true ↔ l = m) := by
  induction l generalizing m with
  | nil => cases m <;> simp [beqM]
  | cons a as_ ih =>
    cases m with
    | nil => simp [beqM]
    | cons b bs_ =>
      obtain ⟨k, v⟩ := a; obtain ⟨k2, v2⟩ := b
      simp only [beqM, Bool.and_eq_true, List.cons.injEq, beq_iff_eq, Prod.mk.injEq]
      rw [h (k, v) (by simp), ih _ (fun x hx => h x (by simp [hx]))]

theorem beq_main : ∀ (n : Nat) (a : Jv), sizeOf a ≤ n → ∀ b, (beqJv a b = true ↔ a = b) := by
  intro n
  induction n with
  | zero => intro a ha; cases a <;> simp_arith at ha
  | succ n ih =>
    intro a ha b
    cases a with
    | null => cases b <;> simp [beqJv]
    | bool x => cases b <;> simp [beqJv]
    | num x => cases b <;> simp [beqJv]
    | str x => cases b <;> simp [beqJv]
    | arr l =>
      cases b <;> simp only [beqJv, Jv.arr.injEq] <;> try simp [beqJv]
      apply beqL_iff
      intro x hx bb
      apply ih
      have h1 := List.sizeOf_lt_of_mem hx
      simp_arith at ha
      omega
    | obj l =>
      cases b <;> simp only [beqJv, Jv.obj.injEq] <;> try simp [beqJv]
      apply beqM_iff
      intro x hx bb
      apply ih
      have h1 := List.sizeOf_lt_of_mem hx
      have h2 : sizeOf x.2 < sizeOf x := by obtain ⟨k, v⟩ := x; simp_arith
      simp_arith at ha
      omega

theorem beqJv_iff (a b : Jv) : (beqJv a b = true ↔ a = b) :=
  beq_main (sizeOf a) a le_rfl b

instance : DecidableEq Jv := fun a b => decidable_of_iff _ (beqJv_iff a b)

/-! ## Canonical JSON serialization

`services/decider/app.py` serializes with `orjson.dumps(x, option=
OPT_SORT_KEYS | OPT_OMIT_MICROSECONDS)`; `services/attestor/app.py` and the
tools serialize with `json.dumps(x, sort_keys=True, separators=(",", ":"))`.
Both sort object keys and emit no insignificant whitespace; stdlib `json`
additionally escapes every code point ≥ 0x80 as `\uXXXX` (`ensure_ascii`),
while `orjson` emits raw UTF-8.  `OPT_OMIT_MICROSECONDS` only affects
`datetime` objects, which never occur in the serialized dictionaries (the
bundle timestamp is already a string), so it is not modelled. -/

/-- One lowercase hex digit. -/
def hexDig (d : Nat) : Nat := if d < 10 then 48 + d else 87 + d

/-- Four lowercase hex digits of a code unit. -/
def hex4 (c : Nat) : Bytes :=
  [hexDig (c / 4096 % 16), hexDig (c / 256 % 16), hexDig (c / 16 % 16), hexDig (c % 16)]

/-- `\uXXXX` escape of a code point ≥ 0x80, with a surrogate pair above
0xFFFF (stdlib `json` `ensure_ascii` behaviour). -/
def uEsc (c : Nat) : Bytes :=
  if c < 65536 then [92, 117] ++ hex4 c
  else
    let d := c - 65536
    [92, 117] ++ hex4 (55296 + d / 1024) ++ ([92, 117] ++ hex4 (56320 + d % 1024))

/-- Escaping of code points below 0x80: identical in stdlib `json` and
`orjson` (short escapes for quote, backslash and the five named controls,
`\u00XX` for the remaining controls, the character itself otherwise). -/
def escAscii (c : Nat) : Bytes :=
  if c = 34 then [92, 34]
  else if c = 92 then [92, 92]
  else if c = 8 then [92, 98]
  else if c = 9 then [92, 116]
  else if c = 10 then [92, 110]
  else if c = 12 then [92, 102]
  else if c = 13 then [92, 114]
  else if c < 32 then [92, 117, 48, 48, hexDig (c / 16), hexDig (c % 16)]
  else [c]

/-- `orjson` string escaping: raw UTF-8 at and above 0x80. -/
def escOr (c : Nat) : Bytes := if c < 128 then escAscii c else [c]

/-- stdlib `json` string escaping (`ensure_ascii=True`): `\uXXXX` at and
above 0x80. -/
def escStd (c : Nat) : Bytes := if c < 128 then escAscii c else uEsc c

/-- Escape every character of a string body. -/
def escBody (esc : Nat → Bytes) : Bytes → Bytes
  | [] => []
  | c :: r => esc c ++ escBody esc r

/-- A JSON string token: quote, escaped body, quote. -/
def dumpStr (esc : Nat → Bytes) (s : Bytes) : Bytes := 34 :: (escBody esc s ++ [34])

/-- Decimal digits of a natural number, with enough fuel to terminate
(structural recursion on the fuel keeps the definition kernel-reducible). -/
def natDecAux : Nat → Nat → Bytes
  | 0, _ => []
  | f + 1, n => if n < 10 then [48 + n] else natDecAux f (n / 10) ++ [48 + n % 10]

/-- Decimal digits of a natural number. -/
def natDec (n : Nat) : Bytes := natDecAux (n + 1) n

/-- Decimal rendering of an integer. -/
def intDec : Int → Bytes
  | .ofNat m => natDec m
  | .negSucc m => 45 :: natDec (m + 1)

/-- Lexicographic comparison of byte strings.  `sorted()` on Python `str`
compares code points; `orjson`'s `OPT_SORT_KEYS` compares UTF-8 bytes, which
orders code points identically. -/
def leB : Bytes → Bytes → Bool
  | [], _ => true
  | _ :: _, [] => false
  | a :: as_, b :: bs_ => if a < b then true else if b < a then false else leB as_ bs_

/-- Sort the members of a JSON object by key (`sort_keys=True` /
`OPT_SORT_KEYS`). -/
def sortKvs (kvs : List (Bytes × Jv)) : List (Bytes × Jv) :=
  List.insertionSort (fun a b => leB a.1 b.1 = true) kvs

mutual
/-- Recursively sort every object of a JSON value by key.  Serializing a
Python value with sorted keys is serializing `sortJv` of it in stored
order. -/
def sortJv : Jv → Jv
  | .null => .null
  | .bool b => .bool b
  | .num n => .num n
  | .str s => .str s
  | .arr l => .arr (sortJvList l)
  | .obj kvs => .obj (sortKvs (sortJvMems kvs))
def sortJvList : List Jv → List Jv
  | [] => []
  | v :: r => sortJv v :: sortJvList r
def sortJvMems : List (Bytes × Jv) → List (Bytes × Jv)
  | [] => []
  | (k, v) :: r => (k, sortJv v) :: sortJvMems r
end

mutual
/-- Compact JSON serialization of a value, emitting object members in
stored order; the escaping of string characters is a parameter (the only
point where `orjson` and stdlib `json` differ on these inputs). -/
def dumpsRaw (esc : Nat → Bytes) : Jv → Bytes
  | .null => [110, 117, 108, 108]
  | .bool true => [116, 114, 117, 101]
  | .bool false => [102, 97, 108, 115, 101]
  | .num n => intDec n
  | .str s => dumpStr esc s
  | .arr l => 91 :: (dumpsItems esc l ++ [93])
  | .obj kvs => 123 :: (dumpsMems esc kvs ++ [125])
def dumpsItems (esc : Nat → Bytes) : List Jv → Bytes
  | [] => []
  | [v] => dumpsRaw esc v
  | v :: r => dumpsRaw esc v ++ 44 :: dumpsItems esc r
def dumpsMems (esc : Nat → Bytes) : List (Bytes × Jv) → Bytes
  | [] => []
  | [(k, v)] => dumpStr esc k ++ 58 :: dumpsRaw esc v
  | (k, v) :: r => dumpStr esc k ++ 58 :: dumpsRaw esc v ++ 44 :: dumpsMems esc r
end

/-- `orjson.dumps(x, option=OPT_SORT_KEYS | OPT_OMIT_MICROSECONDS)`. -/
def orjsonDumps (v : Jv) : Bytes := dumpsRaw escOr (sortJv v)

/-- `json.dumps(x, sort_keys=True, separators=(",", ":")).encode()`. -/
def stdlibDumps (v : Jv) : Bytes := dumpsRaw escStd (sortJv v)

/-! ## JSON parsing (`orjson.loads`)

`verify_jws` in `services/attestor/app.py` parses the decoded header and
payload segments with `orjson.loads`.  The parser below models exactly the
grammar the serializer above emits (JSON without insignificant whitespace;
`\uXXXX` escapes are decoded as single code units — the certificates at
issue are ASCII, so surrogate recombination never arises). -/

/-- Maximal leading run of decimal digits. -/
def takeDigits : Bytes → (Bytes × Bytes)
  | [] => ([], [])
  | c :: r =>
    if 48 ≤ c ∧ c ≤ 57 then
      let p := takeDigits r
      (c :: p.1, p.2)
    else ([], c :: r)

/-- Numeric value of a digit run. -/
def digitsVal (ds : Bytes) : Nat := ds.foldl (fun a c => a * 10 + (c - 48)) 0

/-- Parse an integer token (optional minus sign, then digits). -/
def parseIntTok (s : Bytes) : Option (Int × Bytes) :=
  match s with
  | [] => none
  | c :: r =>
    if c = 45 then
      let p := takeDigits r
      if p.1 = [] then none else some (-(digitsVal p.1 : Int), p.2)
    else
      let p := takeDigits (c :: r)
      if p.1 = [] then none else some ((digitsVal p.1 : Int), p.2)

/-- Value of a hex digit character. -/
def hexVal (c : Nat) : Option Nat :=
  if 48 ≤ c ∧ c ≤ 57 then some (c - 48)
  else if 97 ≤ c ∧ c ≤ 102 then some (c - 87)
  else if 65 ≤ c ∧ c ≤ 70 then some (c - 55)
  else none

/-- Code point of a single-character escape. -/
def escCharVal (e : Nat) : Option Nat :=
  if e = 34 then some 34 else if e = 92 then some 92 else if e = 47 then some 47
  else if e = 98 then some 8 else if e = 116 then some 9 else if e = 110 then some 10
  else if e = 102 then some 12 else if e = 114 then some 13 else none

/-- Parse the body of a string token up to the closing quote. -/
def parseStrBody : Bytes → Option (Bytes × Bytes)
  | [] => none
  | c :: r =>
    if c = 34 then some ([], r)
    else if c = 92 then
      match r with
      | [] => none
      | e :: r2 =>
        if e = 117 then
          match r2 with
          | h1 :: h2 :: h3 :: h4 :: r3 =>
            match hexVal h1, hexVal h2, hexVal h3, hexVal h4 with
            | some v1, some v2, some v3, some v4 =>
              (parseStrBody r3).map (fun p => ((v1 * 4096 + v2 * 256 + v3 * 16 + v4) :: p.1, p.2))
            | _, _, _, _ => none
          | _ => none
        else
          match escCharVal e with
          | some c2 => (parseStrBody r2).map (fun p => (c2 :: p.1, p.2))
          | none => none
    else (parseStrBody r).map (fun p => (c :: p.1, p.2))

mutual
/-- Node-count measure of a JSON value (fuel bound for the parser). -/
def jsize : Jv → Nat
  | .null => 1
  | .bool _ => 1
  | .num _ => 1
  | .str _ => 1
  | .arr l => 1 + jsizeL l
  | .obj kvs => 1 + jsizeM kvs
def jsizeL : List Jv → Nat
  | [] => 0
  | v :: r => 1 + jsize v + jsizeL r
def jsizeM : List (Bytes × Jv) → Nat
  | [] => 0
  | (_, v) :: r => 1 + jsize v + jsizeM r
end

mutual
/-- Fueled recursive-descent parser for one JSON value. -/
def parseVal : Nat → Bytes → Option (Jv × Bytes)
  | 0, _ => none
  | _ + 1, [] => none
  | f + 1, c :: r =>
    if c = 34 then (parseStrBody r).map (fun p => (.str p.1, p.2))
    else if c = 91 then
      match r with
      | [] => none
      | d :: r2 =>
        if d = 93 then some (.arr [], r2)
        else (parseItems f (d :: r2)).map (fun p => (.arr p.1, p.2))
    else if c = 123 then
      match r with
      | [] => none
      | d :: r2 =>
        if d = 125 then some (.obj [], r2)
        else (parseMems f (d :: r2)).map (fun p => (.obj p.1, p.2))
    else if c = 110 then
      match r with
      | 117 :: 108 :: 108 :: r2 => some (.null, r2)
      | _ => none
    else if c = 116 then
      match r with
      | 114 :: 117 :: 101 :: r2 => some (.bool true, r2)
      | _ => none
    else if c = 102 then
      match r with
      | 97 :: 108 :: 115 :: 101 :: r2 => some (.bool false, r2)
      | _ => none
    else (parseIntTok (c :: r)).map (fun p => (.num p.1, p.2))
/-- Parse the non-empty item list of a JSON array, consuming `]`. -/
def parseItems : Nat → Bytes → Option (List Jv × Bytes)
  | 0, _ => none
  | f + 1, s =>
    match parseVal f s with
    | none => none
    | some (v, r) =>
      match r with
      | 93 :: r2 => some ([v], r2)
      | 44 :: r2 => (parseItems f r2).map (fun p => (v :: p.1, p.2))
      | _ => none
/-- Parse the non-empty member list of a JSON object, consuming `}`. -/
def parseMems : Nat → Bytes → Option (List (Bytes × Jv) × Bytes)
  | 0, _ => none
  | f + 1, s =>
    match s with
    | [] => none
    | c :: r =>
      if c = 34 then
        match parseStrBody r with
        | none => none
        | some (k, r1) =>
          match r1 with
          | 58 :: r2 =>
            match parseVal f r2 with
            | none => none
            | some (v, r3) =>
              match r3 with
              | 125 :: r4 => some ([(k, v)], r4)
              | 44 :: r4 => (parseMems f r4).map (fun p => ((k, v) :: p.1, p.2))
              | _ => none
          | _ => none
      else none
end

/-- `orjson.loads`: parse one value consuming the entire input. -/
def orjsonLoads (s : Bytes) : Option Jv :=
  match parseVal (s.length + 1) s with
  | some (v, []) => some v
  | _ => none

/-! ## base64 and JWS segments (`services/attestor/app.py`) -/

/-- base64url alphabet (RFC 4648 §5): `A-Za-z0-9-_`. -/
def encC (v : Nat) : Nat :=
  if v < 26 then 65 + v
  else if v < 52 then 71 + v
  else if v < 62 then v - 4
  else if v = 62 then 45
  else 95

/-- Inverse of the base64url alphabet. -/
def decC (c : Nat) : Option Nat :=
  if 65 ≤ c ∧ c ≤ 90 then some (c - 65)
  else if 97 ≤ c ∧ c ≤ 122 then some (c - 71)
  else if 48 ≤ c ∧ c ≤ 57 then some (c + 4)
  else if c = 45 then some 62
  else if c = 95 then some 63
  else none

/-- `base64.urlsafe_b64encode(b).rstrip(b"=")`: unpadded base64url. -/
def b64e : Bytes → Bytes
  | a :: b :: c :: rest =>
    encC (a / 4) :: encC (a % 4 * 16 + b / 16) :: encC (b % 16 * 4 + c / 64) :: encC (c % 64) ::
      b64e rest
  | [a, b] => [encC (a / 4), encC (a % 4 * 16 + b / 16), encC (b % 16 * 4)]
  | [a] => [encC (a / 4), encC (a % 4 * 16)]
  | [] => []

/-- `base64.urlsafe_b64decode(s + "==")`: decode an unpadded base64url
string (the `"=="` suffix in the source only restores padding). -/
def b64d : Bytes → Option Bytes
  | c1 :: c2 :: c3 :: c4 :: rest =>
    (match decC c1, decC c2, decC c3, decC c4, b64d rest with
      | some v1, some v2, some v3, some v4, some tail =>
        some ((v1 * 4 + v2 / 16) :: (v2 % 16 * 16 + v3 / 4) :: (v3 % 4 * 64 + v4) :: tail)
      | _, _, _, _, _ => none)
  | [c1, c2, c3] =>
    (match decC c1, decC c2, decC c3 with
      | some v1, some v2, some v3 => some [v1 * 4 + v2 / 16, v2 % 16 * 16 + v3 / 4]
      | _, _, _ => none)
  | [c1, c2] =>
    (match decC c1, decC c2 with
      | some v1, some v2 => some [v1 * 4 + v2 / 16]
      | _, _ => none)
  | [_] => none
  | [] => some []

/-- Standard base64 alphabet (RFC 4648 §4): `A-Za-z0-9+/`. -/
def encS (v : Nat) : Nat :=
  if v < 26 then 65 + v
  else if v < 52 then 71 + v
  else if v < 62 then v - 4
  else if v = 62 then 43
  else 47

/-- `base64.b64encode(b)`: padded standard base64 (used for the raw
detached signature `signature_b64`). -/
def b64std : Bytes → Bytes
  | a :: b :: c :: rest =>
    encS (a / 4) :: encS (a % 4 * 16 + b / 16) :: encS (b % 16 * 4 + c / 64) :: encS (c % 64) ::
      b64std rest
  | [a, b] => [encS (a / 4), encS (a % 4 * 16 + b / 16), encS (b % 16 * 4), 61]
  | [a] => [encS (a / 4), encS (a % 4 * 16), 61, 61]
  | [] => []

/-- Python `str.split(".")` on byte strings. -/
def splitOnDot : Bytes → List Bytes
  | [] => [[]]
  | c :: r =>
    if c = 46 then [] :: splitOnDot r
    else
      match splitOnDot r with
      | [] => [[c]]
      | g :: gs => (c :: g) :: gs

/-! ## Cryptographic primitives, symbolically

The development is parametric in the two primitives the services call.
`sha256hex` stands for `hashlib.sha256(x).hexdigest()` (as ASCII bytes);
`edSign` stands for the deterministic detached Ed25519 signature
`SigningKey.sign(m).signature`, and `VerifyKey.verify(m, sig)` is modelled
as the check `sig = edSign key m` (the keyring stores one key value per
`kid`, standing for the seed-derived keypair). -/

structure Crypto where
  sha256hex : Bytes → Bytes
  edSign : Bytes → Bytes → Bytes

/-- First-match association lookup (Python `dict` access on unique keys). -/
def lookupB {α : Type} : List (Bytes × α) → Bytes → Option α
  | [], _ => none
  | (k2, v) :: r, k => if k2 = k then some v else lookupB r k

/-- `d.get(k)` on a JSON object. -/
def objGet (v : Jv) (k : Bytes) : Option Jv :=
  match v with
  | .obj kvs => lookupB kvs k
  | _ => none

/-- Response of the attestor `POST /sign` endpoint (the `public_key_b64`
field plays no role in any claim and is omitted). -/
structure SignResp where
  signature_b64 : Bytes
  digest_hex : Bytes
  kid : Bytes
deriving DecidableEq

/-- `POST /sign`: canonicalize the bundle with stdlib `json` (sorted keys,
compact separators), hash it for `digest_hex`, sign the canonical bytes
with the active key, return the signature in padded standard base64. -/
def attestorSign (C : Crypto) (sk kid : Bytes) (bundle : Jv) : SignResp :=
  let canonical := stdlibDumps bundle
  { signature_b64 := b64std (C.edSign sk canonical)
    digest_hex := C.sha256hex canonical
    kid := kid }

/-- The protected JWS header `{"alg": "EdDSA", "kid": kid, "typ": "JWT"}`. -/
def jwsHeader (kid : Bytes) : Jv :=
  .obj [(bs "alg", .str (bs "EdDSA")), (bs "kid", .str kid), (bs "typ", .str (bs "JWT"))]

/-- `protected || "." || payload_b64`, the bytes that are signed. -/
def signingInput (kid : Bytes) (payload : Jv) : Bytes :=
  b64e (orjsonDumps (jwsHeader kid)) ++ 46 :: b64e (orjsonDumps payload)

/-- `jws_compact_sign`: header and payload canonically serialized
(`orjson` sorted keys), base64url without padding, EdDSA signature over
`header_b64.payload_b64`. -/
def jws_compact_sign (C : Crypto) (payload : Jv) (sk kid : Bytes) : Bytes :=
  signingInput kid payload ++ 46 :: b64e (C.edSign sk (signingInput kid payload))

/-- Outcome of `POST /verify_jws`: an `HTTPException` with a status code, a
`{"valid": false}` body, or a `{"valid": true, "kid": .., "payload": ..}`
body. -/
inductive VerifyJwsOut where
  | httpError : Nat → VerifyJwsOut
  | invalid : VerifyJwsOut
  | valid : Bytes → Jv → VerifyJwsOut
deriving DecidableEq

/-- `POST /verify_jws`: reject malformed compact serializations (not
exactly two dots) and unknown `kid`s with 400; decoding failures outside
the `try` block surface as 500; a bad signature or an undecodable payload
inside the `try` yields `{"valid": false}`. -/
def verify_jws (C : Crypto) (keyring : List (Bytes × Bytes)) (jws : Bytes) : VerifyJwsOut :=
  if jws = [] ∨ jws.count 46 ≠ 2 then .httpError 400
  else
    match splitOnDot jws with
    | [h, p, s] =>
      match b64d h with
      | none => .httpError 500
      | some hb =>
        match orjsonLoads hb with
        | none => .httpError 500
        | some header =>
          match objGet header (bs "kid") with
          | some (.str kid) =>
            match lookupB keyring kid with
            | none => .httpError 400
            | some key =>
              match b64d s with
              | none => .httpError 500
              | some sig =>
                if sig = C.edSign key (h ++ 46 :: p) then
                  match b64d p with
                  | none => .invalid
                  | some pb =>
                    match orjsonLoads pb with
                    | none => .invalid
                    | some payload => .valid kid payload
                else .invalid
          | _ => .httpError 400
    | _ => .httpError 500

/-! ## The policy kernel

`cm.decide_json` is a SQL function created by the database initialization,
which is not part of the source tree; only its callers and its tests are.
It is therefore modelled from the specification (§4.B). -/

/-- The three decision values. -/
inductive Decision where
  | PASS : Decision
  | NEED_ONE_BIT : Decision
  | HOLD_HUMAN : Decision
deriving DecidableEq

/-- The severity ordering `PASS(0) < NEED_ONE_BIT(1) < HOLD_HUMAN(2)`. -/
def dOrder : Decision → Nat
  | .PASS => 0
  | .NEED_ONE_BIT => 1
  | .HOLD_HUMAN => 2

/-- Wire form of a decision value. -/
def decStr : Decision → Bytes
  | .PASS => bs "PASS"
  | .NEED_ONE_BIT => bs "NEED_ONE_BIT"
  | .HOLD_HUMAN => bs "HOLD_HUMAN"

/-- The parameter snapshot (thresholds, allowlist) together with the
kernel identity and parameter hash it reports. -/
structure Params where
  amount_max : Int
  allowlist : List Bytes
  kernel_id : Bytes
  param_hash : Bytes
deriving DecidableEq

/-- The JSON object returned by `cm.decide_json`. -/
structure KernelOut where
  decision : Decision
  obligations : List Bytes
  kernel_id : Bytes
  param_hash : Bytes
deriving DecidableEq

/-- Saturday/Sunday in UTC of an epoch-second instant
(1970-01-01 was a Thursday). -/
def isWeekend (ts : Int) : Bool :=
  let dow := (Int.ediv ts 86400 + 4) % 7
  dow == 6 || dow == 0

/-- Modelled from the spec: the SQL policy kernel `cm.decide_json` is not
under the source tree.  Following §4.B: a country outside the allowlist
never passes; an amount above `amount_max` is not `PASS` (escalating to
`HOLD_HUMAN` on high recent activity, else `NEED_ONE_BIT`); a weekend
instant weakens a would-be `PASS` to `NEED_ONE_BIT`; higher `recent` never
improves the outcome; the output carries the snapshot's `kernel_id` and
`param_hash`. -/
def decide_json (p : Params) (amount : Int) (country : Bytes) (ts : Int) (recent : Int) :
    KernelOut :=
  { decision :=
      if country ∈ p.allowlist then
        if amount > p.amount_max then
          if recent > 2 then .HOLD_HUMAN else .NEED_ONE_BIT
        else if isWeekend ts then .NEED_ONE_BIT
        else .PASS
      else .HOLD_HUMAN
    obligations := []
    kernel_id := p.kernel_id
    param_hash := p.param_hash }

/-! ## The decision engine (`services/decider/app.py`, `decide`)

The embedding makes the hidden inputs of the handler explicit: `now` is the
string `datetime.utcnow().isoformat() + "Z"`, and `oracle` is the outcome
of the worldcheck HTTP round-trip (`.error` models a timeout/HTTP error
raised by `requests.post` / `raise_for_status`, `.ok bit` a 200 response
with `bit` the truthiness of its `"bit"` field).  The attestor round-trips
are in-process calls of the attestor model. -/

/-- The parsed `POST /decide` request body. -/
structure DecideIn where
  amount : Int
  country : Bytes
  ts : Int
  recent : Int
  context_id : Option Bytes
deriving DecidableEq

/-- A decision-ledger row (minus its serial `id`, assigned on insert). -/
structure RowData where
  kernel_id : Bytes
  param_hash : Bytes
  bundle : Jv
  proof_id : Bytes
  certificate_jws : Bytes
  idempotency_key : Bytes
deriving DecidableEq

/-- The engine's storage state: the `cm.idempotency` table, the
`cm.decision_ledger` table with its serial, the parameter snapshot (read by
`cm.decide_json`), and the attestor keyring with its active kid. -/
structure St where
  idem : List (Bytes × Jv)
  ledger : List (Nat × RowData)
  nextId : Nat
  params : Params
  keyring : List (Bytes × Bytes)
  activeKid : Bytes
deriving DecidableEq

/-- Exceptions escaping the handler (HTTP 5xx at the client). -/
inductive Err where
  | oracleHttp : Err
  | attestorHttp : Err
deriving DecidableEq

/-- `payload.model_dump()` as a JSON object (for the auto idempotency key;
the `datetime` is modelled by its numeric instant, whose exact canonical
text plays no role in any claim). -/
def reqJv (req : DecideIn) : Jv :=
  .obj [(bs "amount", .num req.amount), (bs "country", .str req.country),
        (bs "ts", .num req.ts), (bs "recent", .num req.recent),
        (bs "context_id", match req.context_id with | none => .null | some c => .str c)]

/-- `"auto:" + sha256(canonical request).hexdigest()`. -/
def autoKey (C : Crypto) (req : DecideIn) : Bytes :=
  bs "auto:" ++ C.sha256hex (orjsonDumps (reqJv req))

/-- Step 1: the effective idempotency key (client header or auto key). -/
def effKey (C : Crypto) (req : DecideIn) (idemKey : Option Bytes) : Bytes :=
  match idemKey with | some k => k | none => autoKey C req

/-- The `inputs` member of the bundle: amount, country and recent as
submitted (the source records no `ts` here). -/
def inputsJv (req : DecideIn) : Jv :=
  .obj [(bs "amount", .num req.amount), (bs "country", .str req.country),
        (bs "recent", .num req.recent)]

/-- Step 4's canonical bundle. -/
def mkBundle (now : Bytes) (d : Decision) (obls : List Bytes)
    (kernel_id param_hash : Bytes) (req : DecideIn) : Jv :=
  .obj [(bs "ts", .str now), (bs "decision", .str (decStr d)),
        (bs "obligations", .arr (obls.map .str)),
        (bs "kernel_id", .str kernel_id), (bs "param_hash", .str param_hash),
        (bs "inputs", inputsJv req)]

/-- Step 5's JWS certificate payload. -/
def certPayload (now : Bytes) (d : Decision) (obls : List Bytes)
    (kernel_id param_hash : Bytes) (req : DecideIn) (proof_id : Bytes) : Jv :=
  .obj [(bs "sub", .str (bs "decision")), (bs "ts", .str now),
        (bs "decision", .str (decStr d)), (bs "kernel_id", .str kernel_id),
        (bs "param_hash", .str param_hash), (bs "inputs", inputsJv req),
        (bs "obligations", .arr (obls.map .str)), (bs "proof_id", .str proof_id)]

/-- The `DecideOut` response as JSON (this is both the HTTP body and the
value cached in `cm.idempotency`). -/
def outJv (d : Decision) (obls : List Bytes)
    (kernel_id param_hash kid signature_b64 proof_id certificate_jws : Bytes) : Jv :=
  .obj [(bs "decision", .str (decStr d)), (bs "obligations", .arr (obls.map .str)),
        (bs "kernel_id", .str kernel_id), (bs "param_hash", .str param_hash),
        (bs "kid", .str kid), (bs "signature_b64", .str signature_b64),
        (bs "proof_id", .str proof_id), (bs "anchor", .null),
        (bs "certificate_jws", .str certificate_jws)]

/-- Step 3: if the kernel said `NEED_ONE_BIT`, consult the one-bit oracle.
A transport error propagates as an exception (`raise_for_status` — the
source has no handler for it); a response resolves to `PASS`/`HOLD_HUMAN`
and appends `"worldcheck_queried"`. -/
def resolveBit (d : Decision) (obls : List Bytes) (oracle : Except Unit Bool) :
    Except Err (Decision × List Bytes) :=
  if d = .NEED_ONE_BIT then
    match oracle with
    | .error _ => .error .oracleHttp
    | .ok bit => .ok (if bit then .PASS else .HOLD_HUMAN, obls ++ [bs "worldcheck_queried"])
  else .ok (d, obls)

namespace Decider

/-- Steps 2–5 of the handler on an idempotency miss: kernel, oracle
resolution, bundle, raw signature, `proof_id`, JWS certificate, response.
Pure computation — the commit is separate, as in the source, where other
requests may interleave between the cache check and the write. -/
def decideFresh (C : Crypto) (req : DecideIn) (now : Bytes) (oracle : Except Unit Bool)
    (st : St) (ik : Bytes) : Except Err (Jv × RowData) :=
  let k := decide_json st.params req.amount req.country req.ts req.recent
  match resolveBit k.decision k.obligations oracle with
  | .error e => .error e
  | .ok (d, obls) =>
    match lookupB st.keyring st.activeKid with
    | none => .error .attestorHttp
    | some sk =>
      let bundle := mkBundle now d obls k.kernel_id k.param_hash req
      let canon := orjsonDumps bundle
      let sig := attestorSign C sk st.activeKid bundle
      let proof_id := C.sha256hex (canon ++ 124 :: sig.signature_b64)
      let cert := certPayload now d obls k.kernel_id k.param_hash req proof_id
      let jws := jws_compact_sign C cert sk st.activeKid
      let out := outJv d obls k.kernel_id k.param_hash sig.kid sig.signature_b64 proof_id jws
      .ok (out, { kernel_id := k.kernel_id, param_hash := k.param_hash, bundle := bundle,
                  proof_id := proof_id, certificate_jws := jws, idempotency_key := ik })

/-- Step 6: `INSERT ... ON CONFLICT (idempotency_key) DO NOTHING` into the
ledger, then `INSERT ... ON CONFLICT (id_key) DO NOTHING` into the
idempotency cache.  Neither insert re-reads on conflict; the serial is
consumed either way. -/
def commit (st : St) (ik : Bytes) (row : RowData) (out : Jv) : St :=
  { st with
    ledger :=
      if st.ledger.any (fun r => r.2.idempotency_key = ik) then st.ledger
      else st.ledger ++ [(st.nextId, row)]
    nextId := st.nextId + 1
    idem :=
      if (lookupB st.idem ik).isSome then st.idem
      else st.idem ++ [(ik, out)] }

/-- The `POST /decide` handler: effective idempotency key, cache lookup
(returning the cached response verbatim on a hit), fresh computation, and
commit.  The returned value is the freshly computed `out` even when the
ledger insert hit a conflict. -/
def decide (C : Crypto) (req : DecideIn) (idemKey : Option Bytes) (now : Bytes)
    (oracle : Except Unit Bool) (st : St) : Except Err (Jv × St) :=
  let ik := effKey C req idemKey
  match lookupB st.idem ik with
  | some cached => .ok (cached, st)
  | none =>
    match decideFresh C req now oracle st ik with
    | .error e => .error e
    | .ok (out, row) => .ok (out, commit st ik row out)

end Decider

/-! ## The anchor worker (`services/anchor/anchor.py`) -/

/-- One pairing pass of `merkle`'s `while` loop: hash adjacent hex strings
left to right, reusing the left node when no right partner exists. -/
def pairRound (C : Crypto) : List Bytes → List Bytes
  | [] => []
  | [a] => [C.sha256hex (a ++ a)]
  | a :: b :: rest => C.sha256hex (a ++ b) :: pairRound C rest

/-- The `while len(layer) > 1` loop, fueled for kernel reducibility (each
pass at least halves a layer of two or more nodes, so any fuel at or above
the initial layer length suffices). -/
def merkleLoopAux (C : Crypto) : Nat → List Bytes → Option Bytes
  | 0, _ => none
  | _ + 1, [] => none
  | _ + 1, [x] => some x
  | f + 1, l => merkleLoopAux C f (pairRound C l)

/-- `merkle(leaves)`: `None` on an empty list, else hash every leaf and
fold pairing passes to a single root. -/
def merkle (C : Crypto) (leaves : List Bytes) : Option Bytes :=
  if leaves = [] then none
  else merkleLoopAux C leaves.length (leaves.map C.sha256hex)

/-- Duplicate the last node of an odd layer (spec wording). -/
def padDup (l : List Bytes) : List Bytes :=
  if l.length % 2 = 1 then l ++ [l.getLastD []] else l

/-- Hash adjacent pairs of an even layer (spec wording). -/
def chunk2 (C : Crypto) : List Bytes → List Bytes
  | a :: b :: rest => C.sha256hex (a ++ b) :: chunk2 C rest
  | _ => []

/-- Spec-worded loop: pad an odd layer by duplicating its last node, then
hash adjacent pairs, until a single root remains. -/
def merkleSpecAux (C : Crypto) : Nat → List Bytes → Option Bytes
  | 0, _ => none
  | _ + 1, [] => none
  | _ + 1, [x] => some x
  | f + 1, l => merkleSpecAux C f (chunk2 C (padDup l))

/-- The fixed algorithm as the spec states it (§4.G step 3): leaves are
`SHA-256(proof_id_bytes)` in hex, adjacent nodes are paired left-to-right
duplicating the last on odd layers, parents hash the concatenation of the
two child hex strings, and a single leaf's root is the hash of that leaf. -/
def merkleSpec (C : Crypto) (leaves : List Bytes) : Option Bytes :=
  if leaves = [] then none
  else merkleSpecAux C leaves.length (leaves.map C.sha256hex)

/-- An anchor-table row. -/
structure Anchor where
  from_id : Nat
  to_id : Nat
  merkle_root : Bytes
deriving DecidableEq

/-- `SELECT coalesce(max(to_id), 0) FROM cm.anchors`. -/
def maxToId (anchors : List Anchor) : Nat := anchors.foldl (fun m a => max m a.to_id) 0

/-- One cycle of the anchor worker over a ledger snapshot (rows of
`(id, proof_id)` in ascending `id` order): anchor the first 1000 rows with
`id ≥ max(to_id) + 1`, or do nothing when there are none. -/
def anchorStep (C : Crypto) (ledger : List (Nat × Bytes)) (anchors : List Anchor) :
    List Anchor :=
  let start := maxToId anchors + 1
  let rows := (ledger.filter (fun r => start ≤ r.1)).take 1000
  match rows with
  | [] => anchors
  | r0 :: rest =>
    anchors ++ [{ from_id := r0.1, to_id := ((r0 :: rest).getLastD r0).1,
                  merkle_root := (merkle C ((r0 :: rest).map (fun r => r.2))).getD [] }]

/-- Run the worker over successive ledger snapshots, starting from an
empty anchor table. -/
def runAnchors (C : Crypto) (snaps : List (List (Nat × Bytes))) : List Anchor :=
  snaps.foldl (fun anchors L => anchorStep C L anchors) []

/-- Ranges are well-formed and strictly separated in order
(`from ≤ to` and `to < next.from`). -/
def anchorsChain : List Anchor → Bool
  | [] => true
  | [a] => decide (a.from_id ≤ a.to_id)
  | a :: b :: r =>
    decide (a.from_id ≤ a.to_id) && decide (a.to_id < b.from_id) && anchorsChain (b :: r)

/-- Adjacent anchors meet exactly (`to_id + 1 = next.from_id`). -/
def anchorsAdjacent : List Anchor → Bool
  | a :: b :: r => (a.to_id + 1 == b.from_id) && anchorsAdjacent (b :: r)
  | _ => true

/-- The claimed invariant: the first anchor starts at 1 and every adjacent
pair of ranges is contiguous. -/
def anchorsContiguous (l : List Anchor) : Bool :=
  match l with
  | [] => true
  | a :: _ => (a.from_id == 1) && anchorsAdjacent l

/-! ## The replay tool (`tools/replay.py`)

For each ledger row the tool re-evaluates `cm.decide_json` on
`bundle.get("amount", 100)`, `bundle.get("country", "US")`,
`bundle.get("ts", "2025-09-16T12:00:00Z")` and `bundle.get("recent", 0)` —
top-level lookups on the stored bundle object, with defaults. -/

/-- `bundle.get("amount", 100)`. -/
def replayAmountArg (b : Jv) : Jv := (objGet b (bs "amount")).getD (.num 100)

/-- `bundle.get("country", "US")`. -/
def replayCountryArg (b : Jv) : Jv := (objGet b (bs "country")).getD (.str (bs "US"))

/-- `bundle.get("ts", "2025-09-16T12:00:00Z")`. -/
def replayTsArg (b : Jv) : Jv := (objGet b (bs "ts")).getD (.str (bs "2025-09-16T12:00:00Z"))

/-- `bundle.get("recent", 0)`. -/
def replayRecentArg (b : Jv) : Jv := (objGet b (bs "recent")).getD (.num 0)

/-! ## Byte-range predicates -/

/-- All entries are ASCII code points. -/
def asciiB (b : Bytes) : Prop := ∀ c ∈ b, c < 128

/-- All entries are bytes. -/
def bytesB (b : Bytes) : Prop := ∀ c ∈ b, c < 256

mutual
/-- Every string (value or key) of the JSON value is ASCII. -/
def asciiJv : Jv → Bool
  | .null => true
  | .bool _ => true
  | .num _ => true
  | .str s => s.all (· < 128)
  | .arr l => asciiL l
  | .obj kvs => asciiM kvs
def asciiL : List Jv → Bool
  | [] => true
  | v :: r => asciiJv v && asciiL r
def asciiM : List (Bytes × Jv) → Bool
  | [] => true
  | (k, v) :: r => k.all (· < 128) && asciiJv v && asciiM r
end

/-! ## Lemmas: base64 -/

theorem encC_lt128 (v : Nat) : encC v < 128 := by
  unfold encC; split <;> [omega; skip]; split <;> [omega; skip]
  split <;> [omega; skip]; split <;> omega

theorem encC_ne_dot (v : Nat) : encC v ≠ 46 := by
  unfold encC; split <;> [omega; skip]; split <;> [omega; skip]
  split <;> [omega; skip]; split <;> omega

theorem decC_encC {v : Nat} (h : v < 64) : decC (encC v) = some v := by
  revert h; revert v; decide

theorem b64e_lt128 (b : Bytes) : asciiB (b64e b) := by
  induction b using b64e.induct with
  | case1 a x y rest ih =>
    intro c hc
    simp only [b64e, List.mem_cons] at hc
    rcases hc with h | h | h | h | h
    · subst h; exact encC_lt128 _
    · subst h; exact encC_lt128 _
    · subst h; exact encC_lt128 _
    · subst h; exact encC_lt128 _
    · exact ih c h
  | case2 a x =>
    intro c hc
    simp only [b64e, List.mem_cons, List.not_mem_nil, or_false] at hc
    rcases hc with h | h | h <;> (subst h; exact encC_lt128 _)
  | case3 a =>
    intro c hc
    simp only [b64e, List.mem_cons, List.not_mem_nil, or_false] at hc
    rcases hc with h | h <;> (subst h; exact encC_lt128 _)
  | case4 => intro c hc; simp [b64e] at hc

theorem b64e_ne_dot (b : Bytes) : ∀ c ∈ b64e b, c ≠ 46 := by
  induction b using b64e.induct with
  | case1 a x y rest ih =>
    intro c hc
    simp only [b64e, List.mem_cons] at hc
    rcases hc with h | h | h | h | h
    · subst h; exact encC_ne_dot _
    · subst h; exact encC_ne_dot _
    · subst h; exact encC_ne_dot _
    · subst h; exact encC_ne_dot _
    · exact ih c h
  | case2 a x =>
    intro c hc
    simp only [b64e, List.mem_cons, List.not_mem_nil, or_false] at hc
    rcases hc with h | h | h <;> (subst h; exact encC_ne_dot _)
  | case3 a =>
    intro c hc
    simp only [b64e, List.mem_cons, List.not_mem_nil, or_false] at hc
    rcases hc with h | h <;> (subst h; exact encC_ne_dot _)
  | case4 => intro c hc; simp [b64e] at hc

theorem b64d_b64e {b : Bytes} (h : bytesB b) : b64d (b64e b) = some b := by
  induction b using b64e.induct with
  | case1 a x c rest ih =>
    have ha : a < 256 := h a (by simp)
    have hx : x < 256 := h x (by simp)
    have hc : c < 256 := h c (by simp)
    have ih2 := ih (fun y hy => h y (by simp [hy]))
    simp only [b64e, b64d, decC_encC (by omega : a / 4 < 64),
      decC_encC (by omega : a % 4 * 16 + x / 16 < 64),
      decC_encC (by omega : x % 16 * 4 + c / 64 < 64),
      decC_encC (by omega : c % 64 < 64), ih2]
    have e1 : a / 4 * 4 + (a % 4 * 16 + x / 16) / 16 = a := by omega
    have e2 : (a % 4 * 16 + x / 16) % 16 * 16 + (x % 16 * 4 + c / 64) / 4 = x := by omega
    have e3 : (x % 16 * 4 + c / 64) % 4 * 64 + c % 64 = c := by omega
    rw [e1, e2, e3]
  | case2 a x =>
    have ha : a < 256 := h a (by simp)
    have hx : x < 256 := h x (by simp)
    simp only [b64e, b64d, decC_encC (by omega : a / 4 < 64),
      decC_encC (by omega : a % 4 * 16 + x / 16 < 64),
      decC_encC (by omega : x % 16 * 4 < 64)]
    have e1 : a / 4 * 4 + (a % 4 * 16 + x / 16) / 16 = a := by omega
    have e2 : (a % 4 * 16 + x / 16) % 16 * 16 + x % 16 * 4 / 4 = x := by omega
    rw [e1, e2]
  | case3 a =>
    have ha : a < 256 := h a (by simp)
    simp only [b64e, b64d, decC_encC (by omega : a / 4 < 64),
      decC_encC (by omega : a % 4 * 16 < 64)]
    have e1 : a / 4 * 4 + a % 4 * 16 / 16 = a := by omega
    rw [e1]
  | case4 => rfl

/-! ## Lemmas: splitting on dots -/

theorem splitOnDot_append {a : Bytes} (t : Bytes) (h : ∀ c ∈ a, c ≠ 46) :
    splitOnDot (a ++ 46 :: t) = a :: splitOnDot t := by
  induction a with
  | nil => simp [splitOnDot]
  | cons c r ih =>
    have hc : c ≠ 46 := h c (by simp)
    have ih2 := ih (fun x hx => h x (by simp [hx]))
    simp only [List.cons_append, splitOnDot, if_neg hc, List.append_eq, ih2]

theorem splitOnDot_dotfree {a : Bytes} (h : ∀ c ∈ a, c ≠ 46) : splitOnDot a = [a] := by
  induction a with
  | nil => rfl
  | cons c r ih =>
    have hc : c ≠ 46 := h c (by simp)
    have ih2 := ih (fun x hx => h x (by simp [hx]))
    simp only [splitOnDot, if_neg hc, ih2]

theorem count_dotfree {a : Bytes} (h : ∀ c ∈ a, c ≠ 46) : a.count 46 = 0 :=
  List.count_eq_zero.2 (fun hm => h 46 hm rfl)

/-! ## Lemmas: decimal printing and number parsing -/

/-- What may legally follow a serialized number: end of input or a
non-digit (`,`, `]`, `}` in every context the serializer produces). -/
def Delim (rest : Bytes) : Prop :=
  match rest with
  | [] => True
  | c :: _ => ¬(48 ≤ c ∧ c ≤ 57)

theorem natDecAux_digits :
    ∀ (f n : Nat), n < f → ∀ c ∈ natDecAux f n, 48 ≤ c ∧ c ≤ 57 := by
  intro f
  induction f with
  | zero => omega
  | succ f ih =>
    intro n hn c hc
    by_cases h10 : n < 10
    · simp only [natDecAux, if_pos h10, List.mem_singleton] at hc
      omega
    · simp only [natDecAux, if_neg h10, List.mem_append, List.mem_singleton] at hc
      rcases hc with h | h
      · exact ih (n / 10) (by omega) c h
      · omega

theorem natDecAux_head :
    ∀ (f n : Nat), n < f → ∃ c cs, natDecAux f n = c :: cs ∧ 48 ≤ c ∧ c ≤ 57 := by
  intro f
  induction f with
  | zero => omega
  | succ f ih =>
    intro n hn
    by_cases h10 : n < 10
    · exact ⟨48 + n, [], by simp [natDecAux, if_pos h10], by omega, by omega⟩
    · obtain ⟨c, cs, he, h1, h2⟩ := ih (n / 10) (by omega)
      exact ⟨c, cs ++ [48 + n % 10], by simp [natDecAux, if_neg h10, he], h1, h2⟩

theorem natDecAux_val :
    ∀ (f n a : Nat), n < f →
      (natDecAux f n).foldl (fun a c => a * 10 + (c - 48)) a =
        a * 10 ^ (natDecAux f n).length + n := by
  intro f
  induction f with
  | zero => omega
  | succ f ih =>
    intro n a hn
    by_cases h10 : n < 10
    · simp only [natDecAux, if_pos h10, List.foldl_cons, List.foldl_nil, List.length_singleton]
      omega
    · simp only [natDecAux, if_neg h10, List.foldl_append, List.foldl_cons, List.foldl_nil,
        List.length_append, List.length_singleton]
      rw [ih (n / 10) a (by omega)]
      have : 10 ^ ((natDecAux f (n / 10)).length + 1) =
          10 ^ (natDecAux f (n / 10)).length * 10 := pow_succ 10 _
      rw [this]
      have hd : 48 + n % 10 - 48 = n % 10 := by omega
      rw [hd]
      ring_nf
      omega

theorem digitsVal_natDec (n : Nat) : digitsVal (natDec n) = n := by
  have := natDecAux_val (n + 1) n 0 (by omega)
  simpa [digitsVal, natDec] using this

theorem takeDigits_append {ds : Bytes} (rest : Bytes)
    (hd : ∀ c ∈ ds, 48 ≤ c ∧ c ≤ 57) (hr : Delim rest) :
    takeDigits (ds ++ rest) = (ds, rest) := by
  induction ds with
  | nil =>
    cases rest with
    | nil => rfl
    | cons c t =>
      simp only [Delim] at hr
      simp [takeDigits, hr]
  | cons c t ih =>
    have hc := hd c (by simp)
    have ih2 := ih (fun x hx => hd x (by simp [hx]))
    simp only [List.cons_append, takeDigits, if_pos hc, List.append_eq, ih2]

theorem parseIntTok_print (n : Int) (rest : Bytes) (hr : Delim rest) :
    parseIntTok (intDec n ++ rest) = some (n, rest) := by
  cases n with
  | ofNat m =>
    obtain ⟨c, cs, he, h1, h2⟩ := natDecAux_head (m + 1) m (by omega)
    have hdig := natDecAux_digits (m + 1) m (by omega)
    have htd : takeDigits (natDec m ++ rest) = (natDec m, rest) :=
      takeDigits_append rest (fun x hx => hdig x hx) hr
    have hv : digitsVal (natDec m) = m := digitsVal_natDec m
    have hne : natDec m ≠ [] := by simp [natDec, he]
    show parseIntTok (natDec m ++ rest) = some ((m : Int), rest)
    rw [show natDec m = c :: cs from he] at htd hne hv ⊢
    simp only [List.cons_append, parseIntTok, if_neg (by omega : ¬c = 45)]
    rw [show c :: (cs ++ rest) = (c :: cs) ++ rest from rfl, htd]
    simp [hne, hv]
  | negSucc m =>
    have hdig := natDecAux_digits (m + 1 + 1) (m + 1) (by omega)
    have htd : takeDigits (natDec (m + 1) ++ rest) = (natDec (m + 1), rest) :=
      takeDigits_append rest (fun x hx => hdig x hx) hr
    obtain ⟨c, cs, he, h1, h2⟩ := natDecAux_head (m + 1 + 1) (m + 1) (by omega)
    have hne : natDec (m + 1) ≠ [] := by simp [natDec, he]
    show parseIntTok (45 :: natDec (m + 1) ++ rest) = some (Int.negSucc m, rest)
    simp only [List.cons_append, parseIntTok, if_pos rfl]
    rw [htd]
    simp [hne, digitsVal_natDec, Int.negSucc_eq]

/-! ## Lemmas: string tokens -/

theorem hexVal_hexDig {d : Nat} (h : d < 16) : hexVal (hexDig d) = some d := by
  revert h; revert d; decide

theorem parseStrBody_quote (X : Bytes) : parseStrBody (34 :: X) = some ([], X) := by
  rw [parseStrBody.eq_def]; simp

theorem parseStrBody_other {c : Nat} (h34 : c ≠ 34) (h92 : c ≠ 92) (X : Bytes) :
    parseStrBody (c :: X) = (parseStrBody X).map (fun p => (c :: p.1, p.2)) := by
  rw [parseStrBody.eq_def]; simp [h34, h92]

theorem parseStrBody_esc {e c2 : Nat} (he : escCharVal e = some c2) (hne : e ≠ 117)
    (X : Bytes) :
    parseStrBody (92 :: e :: X) = (parseStrBody X).map (fun p => (c2 :: p.1, p.2)) := by
  rw [parseStrBody.eq_def]; simp [hne, he]

theorem parseStrBody_hex {h1 h2 h3 h4 v1 v2 v3 v4 : Nat}
    (e1 : hexVal h1 = some v1) (e2 : hexVal h2 = some v2)
    (e3 : hexVal h3 = some v3) (e4 : hexVal h4 = some v4) (X : Bytes) :
    parseStrBody (92 :: 117 :: h1 :: h2 :: h3 :: h4 :: X) =
      (parseStrBody X).map (fun p => ((v1 * 4096 + v2 * 256 + v3 * 16 + v4) :: p.1, p.2)) := by
  rw [parseStrBody.eq_def]; simp [e1, e2, e3, e4]

theorem strBody_print (s : Bytes) (rest : Bytes) :
    parseStrBody (escBody escOr s ++ 34 :: rest) = some (s, rest) := by
  induction s with
  | nil => simpa [escBody] using parseStrBody_quote rest
  | cons c t ih =>
    show parseStrBody ((escOr c ++ escBody escOr t) ++ 34 :: rest) = some (c :: t, rest)
    rw [List.append_assoc]
    rcases Nat.lt_or_ge c 128 with hlt | hge
    · have he : escOr c = escAscii c := by simp [escOr, hlt]
      rw [he]
      by_cases h34 : c = 34
      · subst h34
        rw [show escAscii 34 = [92, 34] from rfl]
        simp [parseStrBody_esc (show escCharVal 34 = some 34 from rfl) (by omega), ih]
      by_cases h92 : c = 92
      · subst h92
        rw [show escAscii 92 = [92, 92] from rfl]
        simp [parseStrBody_esc (show escCharVal 92 = some 92 from rfl) (by omega), ih]
      by_cases h8 : c = 8
      · subst h8
        rw [show escAscii 8 = [92, 98] from rfl]
        simp [parseStrBody_esc (show escCharVal 98 = some 8 from rfl) (by omega), ih]
      by_cases h9 : c = 9
      · subst h9
        rw [show escAscii 9 = [92, 116] from rfl]
        simp [parseStrBody_esc (show escCharVal 116 = some 9 from rfl) (by omega), ih]
      by_cases h10 : c = 10
      · subst h10
        rw [show escAscii 10 = [92, 110] from rfl]
        simp [parseStrBody_esc (show escCharVal 110 = some 10 from rfl) (by omega), ih]
      by_cases h12 : c = 12
      · subst h12
        rw [show escAscii 12 = [92, 102] from rfl]
        simp [parseStrBody_esc (show escCharVal 102 = some 12 from rfl) (by omega), ih]
      by_cases h13 : c = 13
      · subst h13
        rw [show escAscii 13 = [92, 114] from rfl]
        simp [parseStrBody_esc (show escCharVal 114 = some 13 from rfl) (by omega), ih]
      by_cases hctl : c < 32
      · have hesc : escAscii c = [92, 117, 48, 48, hexDig (c / 16), hexDig (c % 16)] := by
          simp [escAscii, h34, h92, h8, h9, h10, h12, h13, hctl]
        rw [hesc]
        simp only [List.cons_append, List.nil_append]
        rw [parseStrBody_hex (show hexVal 48 = some 0 from rfl)
          (show hexVal 48 = some 0 from rfl)
          (hexVal_hexDig (by omega : c / 16 < 16)) (hexVal_hexDig (by omega : c % 16 < 16)), ih]
        have hv : c / 16 * 16 + c % 16 = c := by omega
        simp [hv]
      · have hesc : escAscii c = [c] := by
          simp [escAscii, h34, h92, h8, h9, h10, h12, h13, hctl]
        rw [hesc]
        simp only [List.cons_append, List.nil_append]
        rw [parseStrBody_other h34 h92, ih]
        simp
    · have h34 : c ≠ 34 := by omega
      have h92 : c ≠ 92 := by omega
      have he : escOr c = [c] := by
        simp only [escOr, if_neg (by omega : ¬c < 128)]
      rw [he]
      simp only [List.cons_append, List.nil_append]
      rw [parseStrBody_other h34 h92, ih]
      simp

/-! ## Lemmas: the serializer output parses back -/

/-- The characters that can start a serialized JSON value. -/
def headClass (c : Nat) : Prop :=
  c = 34 ∨ c = 91 ∨ c = 123 ∨ c = 110 ∨ c = 116 ∨ c = 102 ∨ c = 45 ∨ (48 ≤ c ∧ c ≤ 57)

theorem intDec_head (n : Int) :
    ∃ c cs, intDec n = c :: cs ∧ (c = 45 ∨ (48 ≤ c ∧ c ≤ 57)) := by
  cases n with
  | ofNat m =>
    obtain ⟨c, cs, he, h1, h2⟩ := natDecAux_head (m + 1) m (by omega)
    exact ⟨c, cs, he, Or.inr ⟨h1, h2⟩⟩
  | negSucc m => exact ⟨45, natDec (m + 1), rfl, Or.inl rfl⟩

theorem dumpsRaw_head (esc : Nat → Bytes) (v : Jv) :
    ∃ c cs, dumpsRaw esc v = c :: cs ∧ headClass c := by
  cases v with
  | null => exact ⟨110, _, rfl, by unfold headClass; omega⟩
  | bool b =>
    cases b with
    | false => exact ⟨102, _, rfl, by unfold headClass; omega⟩
    | true => exact ⟨116, _, rfl, by unfold headClass; omega⟩
  | num n =>
    obtain ⟨c, cs, he, hc⟩ := intDec_head n
    exact ⟨c, cs, he, by unfold headClass; omega⟩
  | str s => exact ⟨34, _, rfl, by unfold headClass; omega⟩
  | arr l => exact ⟨91, _, rfl, by unfold headClass; omega⟩
  | obj kvs => exact ⟨123, _, rfl, by unfold headClass; omega⟩

theorem dumpsItems_head (esc : Nat → Bytes) (v0 : Jv) (r0 : List Jv) :
    ∃ c cs, dumpsItems esc (v0 :: r0) = c :: cs ∧ headClass c := by
  obtain ⟨c, cs, he, hc⟩ := dumpsRaw_head esc v0
  cases r0 with
  | nil => exact ⟨c, cs, he, hc⟩
  | cons b bs_ =>
    exact ⟨c, cs ++ 44 :: dumpsItems esc (b :: bs_), by
      rw [show dumpsItems esc (v0 :: b :: bs_) =
        dumpsRaw esc v0 ++ 44 :: dumpsItems esc (b :: bs_) from rfl, he]; rfl, hc⟩

theorem dumpsMems_head (esc : Nat → Bytes) (m0 : Bytes × Jv) (r0 : List (Bytes × Jv)) :
    ∃ cs, dumpsMems esc (m0 :: r0) = 34 :: cs := by
  obtain ⟨k, v⟩ := m0
  cases r0 with
  | nil => exact ⟨_, rfl⟩
  | cons b bs_ => exact ⟨_, rfl⟩

theorem jsize_pos (v : Jv) : 1 ≤ jsize v := by
  cases v <;> simp [jsize]

/-! Parser head-shape lemmas. -/

theorem parseVal_str (f : Nat) (X : Bytes) :
    parseVal (f + 1) (34 :: X) = (parseStrBody X).map (fun p => (.str p.1, p.2)) := by
  rw [parseVal.eq_def]; simp

theorem parseVal_arrNil (f : Nat) (X : Bytes) :
    parseVal (f + 1) (91 :: 93 :: X) = some (.arr [], X) := by
  rw [parseVal.eq_def]; simp

theorem parseVal_arr (f : Nat) {d : Nat} (hd : d ≠ 93) (X : Bytes) :
    parseVal (f + 1) (91 :: d :: X) =
      (parseItems f (d :: X)).map (fun p => (.arr p.1, p.2)) := by
  rw [parseVal.eq_def]; simp [hd]

theorem parseVal_objNil (f : Nat) (X : Bytes) :
    parseVal (f + 1) (123 :: 125 :: X) = some (.obj [], X) := by
  rw [parseVal.eq_def]; simp

theorem parseVal_obj (f : Nat) {d : Nat} (hd : d ≠ 125) (X : Bytes) :
    parseVal (f + 1) (123 :: d :: X) =
      (parseMems f (d :: X)).map (fun p => (.obj p.1, p.2)) := by
  rw [parseVal.eq_def]; simp [hd]

theorem parseVal_null (f : Nat) (X : Bytes) :
    parseVal (f + 1) (110 :: 117 :: 108 :: 108 :: X) = some (.null, X) := by
  rw [parseVal.eq_def]; simp

theorem parseVal_true (f : Nat) (X : Bytes) :
    parseVal (f + 1) (116 :: 114 :: 117 :: 101 :: X) = some (.bool true, X) := by
  rw [parseVal.eq_def]; simp

theorem parseVal_false (f : Nat) (X : Bytes) :
    parseVal (f + 1) (102 :: 97 :: 108 :: 115 :: 101 :: X) = some (.bool false, X) := by
  rw [parseVal.eq_def]; simp

theorem parseVal_num (f : Nat) {c : Nat} (h34 : c ≠ 34) (h91 : c ≠ 91) (h123 : c ≠ 123)
    (h110 : c ≠ 110) (h116 : c ≠ 116) (h102 : c ≠ 102) (X : Bytes) :
    parseVal (f + 1) (c :: X) = (parseIntTok (c :: X)).map (fun p => (.num p.1, p.2)) := by
  rw [parseVal.eq_def]; simp [h34, h91, h123, h110, h116, h102]

theorem printParse_main : ∀ N : Nat,
    (∀ (v : Jv) (f : Nat) (rest : Bytes), jsize v ≤ N → jsize v ≤ f → Delim rest →
      parseVal f (dumpsRaw escOr v ++ rest) = some (v, rest)) ∧
    (∀ (l : List Jv) (f : Nat) (rest : Bytes), jsizeL l ≤ N → jsizeL l ≤ f → l ≠ [] →
      parseItems f (dumpsItems escOr l ++ 93 :: rest) = some (l, rest)) ∧
    (∀ (kvs : List (Bytes × Jv)) (f : Nat) (rest : Bytes), jsizeM kvs ≤ N → jsizeM kvs ≤ f →
      kvs ≠ [] →
      parseMems f (dumpsMems escOr kvs ++ 125 :: rest) = some (kvs, rest)) := by
  intro N
  induction N using Nat.strong_induction_on with
  | _ N IH =>
    refine ⟨?_, ?_, ?_⟩
    · intro v f rest hN hf hrest
      obtain ⟨f0, rfl⟩ : ∃ f0, f = f0 + 1 := ⟨f - 1, by have := jsize_pos v; omega⟩
      cases v with
      | null =>
        rw [show dumpsRaw escOr Jv.null ++ rest = 110 :: 117 :: 108 :: 108 :: rest from rfl]
        exact parseVal_null f0 rest
      | bool b =>
        cases b with
        | false =>
          rw [show dumpsRaw escOr (Jv.bool false) ++ rest =
            102 :: 97 :: 108 :: 115 :: 101 :: rest from rfl]
          exact parseVal_false f0 rest
        | true =>
          rw [show dumpsRaw escOr (Jv.bool true) ++ rest =
            116 :: 114 :: 117 :: 101 :: rest from rfl]
          exact parseVal_true f0 rest
      | num n =>
        obtain ⟨c, cs, he, hc⟩ := intDec_head n
        rw [show dumpsRaw escOr (Jv.num n) = intDec n from rfl, he, List.cons_append,
          parseVal_num f0 (by omega) (by omega) (by omega) (by omega) (by omega) (by omega),
          show c :: (cs ++ rest) = (c :: cs) ++ rest from rfl, ← he, parseIntTok_print n rest hrest]
        rfl
      | str s =>
        rw [show dumpsRaw escOr (Jv.str s) ++ rest =
          34 :: (escBody escOr s ++ 34 :: rest) from by
            simp [dumpStr, dumpsRaw], parseVal_str f0, strBody_print s rest]
        rfl
      | arr l =>
        cases l with
        | nil =>
          rw [show dumpsRaw escOr (Jv.arr []) ++ rest = 91 :: 93 :: rest from rfl]
          exact parseVal_arrNil f0 rest
        | cons v0 r0 =>
          obtain ⟨c, cs, he, hc⟩ := dumpsItems_head escOr v0 r0
          have hiL : jsizeL (v0 :: r0) < N := by
            have : jsize (Jv.arr (v0 :: r0)) = 1 + jsizeL (v0 :: r0) := rfl
            omega
          have hitems := (IH (jsizeL (v0 :: r0)) hiL).2.1 (v0 :: r0) f0 rest le_rfl
            (by have : jsize (Jv.arr (v0 :: r0)) = 1 + jsizeL (v0 :: r0) := rfl; omega)
            (by simp)
          rw [show dumpsRaw escOr (Jv.arr (v0 :: r0)) ++ rest =
            91 :: (dumpsItems escOr (v0 :: r0) ++ 93 :: rest) from by
              simp [dumpsRaw], he, List.cons_append,
            parseVal_arr f0 (by unfold headClass at hc; omega),
            show c :: (cs ++ 93 :: rest) = (c :: cs) ++ 93 :: rest from rfl, ← he, hitems]
          rfl
      | obj kvs =>
        cases kvs with
        | nil =>
          rw [show dumpsRaw escOr (Jv.obj []) ++ rest = 123 :: 125 :: rest from rfl]
          exact parseVal_objNil f0 rest
        | cons m0 r0 =>
          obtain ⟨cs, he⟩ := dumpsMems_head escOr m0 r0
          have hiM : jsizeM (m0 :: r0) < N := by
            have : jsize (Jv.obj (m0 :: r0)) = 1 + jsizeM (m0 :: r0) := rfl
            omega
          have hmems := (IH (jsizeM (m0 :: r0)) hiM).2.2 (m0 :: r0) f0 rest le_rfl
            (by have : jsize (Jv.obj (m0 :: r0)) = 1 + jsizeM (m0 :: r0) := rfl; omega)
            (by simp)
          rw [show dumpsRaw escOr (Jv.obj (m0 :: r0)) ++ rest =
            123 :: (dumpsMems escOr (m0 :: r0) ++ 125 :: rest) from by
              simp [dumpsRaw], he, List.cons_append,
            parseVal_obj f0 (by omega),
            show (34 : Nat) :: (cs ++ 125 :: rest) = (34 :: cs) ++ 125 :: rest from rfl, ← he,
            hmems]
          rfl
    · intro l f rest hN hf hne
      cases l with
      | nil => exact absurd rfl hne
      | cons v r =>
        obtain ⟨f0, rfl⟩ : ∃ f0, f = f0 + 1 := by
          have := jsize_pos v
          have : jsizeL (v :: r) = 1 + jsize v + jsizeL r := rfl
          exact ⟨f - 1, by omega⟩
        have hszL : jsizeL (v :: r) = 1 + jsize v + jsizeL r := rfl
        have hvN : jsize v < N := by omega
        cases r with
        | nil =>
          have hval := (IH (jsize v) hvN).1 v f0 (93 :: rest) le_rfl (by omega)
            (by unfold Delim; omega)
          rw [show dumpsItems escOr [v] = dumpsRaw escOr v from rfl, parseItems.eq_def]
          simp only [List.append_eq]
          rw [hval]
        | cons v2 r2 =>
          have hszL2 : jsizeL (v2 :: r2) = 1 + jsize v2 + jsizeL r2 := rfl
          have hval := (IH (jsize v) hvN).1 v f0
            (44 :: (dumpsItems escOr (v2 :: r2) ++ 93 :: rest)) le_rfl (by omega)
            (by unfold Delim; omega)
          have hrec := (IH (jsizeL (v2 :: r2)) (by omega)).2.1 (v2 :: r2) f0 rest le_rfl
            (by omega) (by simp)
          rw [show dumpsItems escOr (v :: v2 :: r2) =
            dumpsRaw escOr v ++ 44 :: dumpsItems escOr (v2 :: r2) from rfl, parseItems.eq_def]
          simp only [List.append_assoc, List.cons_append, List.append_eq]
          rw [hval]
          simp [hrec]
    · intro kvs f rest hN hf hne
      cases kvs with
      | nil => exact absurd rfl hne
      | cons m0 r =>
        obtain ⟨k, v⟩ := m0
        obtain ⟨f0, rfl⟩ : ∃ f0, f = f0 + 1 := by
          have := jsize_pos v
          have : jsizeM ((k, v) :: r) = 1 + jsize v + jsizeM r := rfl
          exact ⟨f - 1, by omega⟩
        have hszM : jsizeM ((k, v) :: r) = 1 + jsize v + jsizeM r := rfl
        have hvN : jsize v < N := by omega
        cases r with
        | nil =>
          have hval := (IH (jsize v) hvN).1 v f0 (125 :: rest) le_rfl (by omega)
            (by unfold Delim; omega)
          rw [show dumpsMems escOr [(k, v)] =
            (34 :: (escBody escOr k ++ [34])) ++ 58 :: dumpsRaw escOr v from rfl,
            parseMems.eq_def]
          simp only [List.append_assoc, List.cons_append, List.nil_append, List.append_eq]
          have hsb := strBody_print k (58 :: (dumpsRaw escOr v ++ 125 :: rest))
          simp only [List.append_assoc] at hsb ⊢
          simp only [hsb]
          simp [hval]
        | cons m2 r2 =>
          obtain ⟨k2, v2⟩ := m2
          have hszM2 : jsizeM ((k2, v2) :: r2) = 1 + jsize v2 + jsizeM r2 := rfl
          have hval := (IH (jsize v) hvN).1 v f0
            (44 :: (dumpsMems escOr ((k2, v2) :: r2) ++ 125 :: rest)) le_rfl (by omega)
            (by unfold Delim; omega)
          have hrec := (IH (jsizeM ((k2, v2) :: r2)) (by omega)).2.2 ((k2, v2) :: r2) f0 rest
            le_rfl (by omega) (by simp)
          rw [show dumpsMems escOr ((k, v) :: (k2, v2) :: r2) =
            (34 :: (escBody escOr k ++ [34])) ++
              58 :: dumpsRaw escOr v ++ 44 :: dumpsMems escOr ((k2, v2) :: r2) from rfl,
            parseMems.eq_def]
          simp only [List.append_assoc, List.cons_append, List.nil_append, List.append_eq]
          have hsb := strBody_print k
            (58 :: (dumpsRaw escOr v ++ 44 :: (dumpsMems escOr ((k2, v2) :: r2) ++ 125 :: rest)))
          simp only [List.append_assoc] at hsb ⊢
          simp only [hsb]
          simp [hval, hrec]

theorem jsize_le_len : ∀ N : Nat,
    (∀ v : Jv, jsize v ≤ N → jsize v ≤ (dumpsRaw escOr v).length) ∧
    (∀ l : List Jv, jsizeL l ≤ N → jsizeL l ≤ (dumpsItems escOr l).length + 1) ∧
    (∀ kvs : List (Bytes × Jv), jsizeM kvs ≤ N →
      jsizeM kvs ≤ (dumpsMems escOr kvs).length + 1) := by
  intro N
  induction N using Nat.strong_induction_on with
  | _ N IH =>
    refine ⟨?_, ?_, ?_⟩
    · intro v hN
      cases v with
      | null => simp [jsize, dumpsRaw]
      | bool b => cases b <;> simp [jsize, dumpsRaw]
      | num n =>
        obtain ⟨c, cs, he, _⟩ := intDec_head n
        rw [show dumpsRaw escOr (Jv.num n) = intDec n from rfl, he]
        simp [jsize]
      | str s =>
        rw [show dumpsRaw escOr (Jv.str s) = 34 :: (escBody escOr s ++ [34]) from rfl]
        simp [jsize]
      | arr l =>
        have h1 : jsize (Jv.arr l) = 1 + jsizeL l := rfl
        have h2 := (IH (jsizeL l) (by omega)).2.1 l le_rfl
        rw [show dumpsRaw escOr (Jv.arr l) = 91 :: (dumpsItems escOr l ++ [93]) from rfl]
        simp only [List.length_cons, List.length_append, List.length_singleton]
        omega
      | obj kvs =>
        have h1 : jsize (Jv.obj kvs) = 1 + jsizeM kvs := rfl
        have h2 := (IH (jsizeM kvs) (by omega)).2.2 kvs le_rfl
        rw [show dumpsRaw escOr (Jv.obj kvs) = 123 :: (dumpsMems escOr kvs ++ [125]) from rfl]
        simp only [List.length_cons, List.length_append, List.length_singleton]
        omega
    · intro l hN
      cases l with
      | nil => simp [jsizeL]
      | cons v r =>
        have h1 : jsizeL (v :: r) = 1 + jsize v + jsizeL r := rfl
        have hv := (IH (jsize v) (by have := jsize_pos v; omega)).1 v le_rfl
        cases r with
        | nil =>
          rw [show dumpsItems escOr [v] = dumpsRaw escOr v from rfl]
          have : jsizeL [v] = 1 + jsize v + 0 := rfl
          omega
        | cons v2 r2 =>
          have h2 : jsizeL (v2 :: r2) = 1 + jsize v2 + jsizeL r2 := rfl
          have hr := (IH (jsizeL (v2 :: r2)) (by have := jsize_pos v; omega)).2.1 (v2 :: r2) le_rfl
          rw [show dumpsItems escOr (v :: v2 :: r2) =
            dumpsRaw escOr v ++ 44 :: dumpsItems escOr (v2 :: r2) from rfl]
          simp only [List.length_append, List.length_cons]
          omega
    · intro kvs hN
      cases kvs with
      | nil => simp [jsizeM]
      | cons m0 r =>
        obtain ⟨k, v⟩ := m0
        have h1 : jsizeM ((k, v) :: r) = 1 + jsize v + jsizeM r := rfl
        have hv := (IH (jsize v) (by have := jsize_pos v; omega)).1 v le_rfl
        cases r with
        | nil =>
          rw [show dumpsMems escOr [(k, v)] =
            (34 :: (escBody escOr k ++ [34])) ++ 58 :: dumpsRaw escOr v from rfl]
          simp only [List.length_append, List.length_cons]
          have h0 : jsizeM ([] : List (Bytes × Jv)) = 0 := rfl
          omega
        | cons m2 r2 =>
          obtain ⟨k2, v2⟩ := m2
          have h2 : jsizeM ((k2, v2) :: r2) = 1 + jsize v2 + jsizeM r2 := rfl
          have hr := (IH (jsizeM ((k2, v2) :: r2)) (by have := jsize_pos v; omega)).2.2
            ((k2, v2) :: r2) le_rfl
          rw [show dumpsMems escOr ((k, v) :: (k2, v2) :: r2) =
            (34 :: (escBody escOr k ++ [34])) ++
              58 :: dumpsRaw escOr v ++ 44 :: dumpsMems escOr ((k2, v2) :: r2) from rfl]
          simp only [List.length_append, List.length_cons]
          omega

/-- The serializer output parses back to exactly the serialized tree. -/
theorem orjsonLoads_dumpsRaw (v : Jv) : orjsonLoads (dumpsRaw escOr v) = some v := by
  have hsz := (jsize_le_len (jsize v)).1 v le_rfl
  have h := (printParse_main (jsize v)).1 v ((dumpsRaw escOr v).length + 1) [] le_rfl
    (by omega) (by unfold Delim; trivial)
  rw [List.append_nil] at h
  unfold orjsonLoads
  rw [h]

/-- `orjson.loads(orjson.dumps(v, OPT_SORT_KEYS))` returns `v` with every
object sorted by key (for a Python `dict` this is the same value). -/
theorem orjsonLoads_orjsonDumps (v : Jv) : orjsonLoads (orjsonDumps v) = some (sortJv v) :=
  orjsonLoads_dumpsRaw (sortJv v)

/-! ## Lemmas: ASCII values serialize identically in both libraries -/

theorem all_perm {α : Type} {p : α → Bool} {l1 l2 : List α} (h : l1.Perm l2) :
    l1.all p = l2.all p := by
  cases hb : l2.all p with
  | true =>
    rw [List.all_eq_true] at hb ⊢
    exact fun x hx => hb x (h.subset hx)
  | false =>
    rw [List.all_eq_false] at hb ⊢
    obtain ⟨x, hx, hpx⟩ := hb
    exact ⟨x, h.symm.subset hx, hpx⟩

theorem hexDig_lt128 (d : Nat) (h : d < 16) : hexDig d < 128 := by
  unfold hexDig; split <;> omega

theorem escAscii_ascii {c : Nat} (h : c < 128) : asciiB (escAscii c) := by
  intro x hx
  have hd1 := hexDig_lt128 (c / 16) (by omega)
  have hd2 := hexDig_lt128 (c % 16) (by omega)
  unfold escAscii at hx
  repeat' split at hx
  all_goals simp only [List.mem_cons, List.mem_singleton, List.not_mem_nil, or_false] at hx
  all_goals omega

theorem escOr_ascii {c : Nat} (h : c < 128) : asciiB (escOr c) := by
  rw [show escOr c = escAscii c from by simp [escOr, h]]
  exact escAscii_ascii h

theorem escBody_ascii {s : Bytes} (h : s.all (· < 128) = true) :
    asciiB (escBody escOr s) := by
  induction s with
  | nil => intro x hx; simp [escBody] at hx
  | cons c t ih =>
    simp only [List.all_cons, Bool.and_eq_true, decide_eq_true_eq] at h
    intro x hx
    simp only [escBody, List.mem_append] at hx
    rcases hx with hx | hx
    · exact escOr_ascii h.1 x hx
    · exact ih (by simpa using h.2) x hx

theorem escBody_stdlib {s : Bytes} (h : s.all (· < 128) = true) :
    escBody escOr s = escBody escStd s := by
  induction s with
  | nil => rfl
  | cons c t ih =>
    simp only [List.all_cons, Bool.and_eq_true, decide_eq_true_eq] at h
    have hc : escOr c = escStd c := by simp [escOr, escStd, h.1]
    simp only [escBody, hc, ih (by simpa using h.2)]

theorem intDec_ascii (n : Int) : asciiB (intDec n) := by
  cases n with
  | ofNat m =>
    intro x hx
    have := natDecAux_digits (m + 1) m (by omega) x hx
    omega
  | negSucc m =>
    intro x hx
    simp only [intDec, List.mem_cons] at hx
    rcases hx with h | h
    · omega
    · have := natDecAux_digits (m + 1 + 1) (m + 1) (by omega) x h
      omega

theorem dumps_ascii_main : ∀ N : Nat,
    (∀ v : Jv, jsize v ≤ N → asciiJv v = true → asciiB (dumpsRaw escOr v)) ∧
    (∀ l : List Jv, jsizeL l ≤ N → asciiL l = true → asciiB (dumpsItems escOr l)) ∧
    (∀ kvs : List (Bytes × Jv), jsizeM kvs ≤ N → asciiM kvs = true →
      asciiB (dumpsMems escOr kvs)) := by
  intro N
  induction N using Nat.strong_induction_on with
  | _ N IH =>
    refine ⟨?_, ?_, ?_⟩
    · intro v hN ha
      cases v with
      | null => intro x hx; simp [dumpsRaw] at hx; omega
      | bool b => cases b <;> (intro x hx; simp [dumpsRaw] at hx; omega)
      | num n => exact intDec_ascii n
      | str s =>
        rw [show dumpsRaw escOr (Jv.str s) = 34 :: (escBody escOr s ++ [34]) from rfl]
        intro x hx
        simp only [List.mem_cons, List.mem_append, List.mem_singleton, List.not_mem_nil,
          or_false] at hx
        rcases hx with h | h | h
        · omega
        · exact escBody_ascii (by simpa [asciiJv] using ha) x h
        · omega
      | arr l =>
        have h1 : jsize (Jv.arr l) = 1 + jsizeL l := rfl
        have h2 := (IH (jsizeL l) (by omega)).2.1 l le_rfl (by simpa [asciiJv] using ha)
        rw [show dumpsRaw escOr (Jv.arr l) = 91 :: (dumpsItems escOr l ++ [93]) from rfl]
        intro x hx
        simp only [List.mem_cons, List.mem_append, List.mem_singleton, List.not_mem_nil,
          or_false] at hx
        rcases hx with h | h | h
        · omega
        · exact h2 x h
        · omega
      | obj kvs =>
        have h1 : jsize (Jv.obj kvs) = 1 + jsizeM kvs := rfl
        have h2 := (IH (jsizeM kvs) (by omega)).2.2 kvs le_rfl (by simpa [asciiJv] using ha)
        rw [show dumpsRaw escOr (Jv.obj kvs) = 123 :: (dumpsMems escOr kvs ++ [125]) from rfl]
        intro x hx
        simp only [List.mem_cons, List.mem_append, List.mem_singleton, List.not_mem_nil,
          or_false] at hx
        rcases hx with h | h | h
        · omega
        · exact h2 x h
        · omega
    · intro l hN ha
      cases l with
      | nil => intro x hx; simp [dumpsItems] at hx
      | cons v r =>
        have h1 : jsizeL (v :: r) = 1 + jsize v + jsizeL r := rfl
        simp only [asciiL, Bool.and_eq_true] at ha
        have hv := (IH (jsize v) (by omega)).1 v le_rfl ha.1
        cases r with
        | nil => exact hv
        | cons v2 r2 =>
          have hr := (IH (jsizeL (v2 :: r2)) (by have := jsize_pos v; omega)).2.1 (v2 :: r2)
            le_rfl ha.2
          rw [show dumpsItems escOr (v :: v2 :: r2) =
            dumpsRaw escOr v ++ 44 :: dumpsItems escOr (v2 :: r2) from rfl]
          intro x hx
          simp only [List.mem_append, List.mem_cons, List.not_mem_nil, or_false] at hx
          rcases hx with h | h | h
          · exact hv x h
          · omega
          · exact hr x h
    · intro kvs hN ha
      cases kvs with
      | nil => intro x hx; simp [dumpsMems] at hx
      | cons m0 r =>
        obtain ⟨k, v⟩ := m0
        have h1 : jsizeM ((k, v) :: r) = 1 + jsize v + jsizeM r := rfl
        simp only [asciiM, Bool.and_eq_true] at ha
        have hv := (IH (jsize v) (by omega)).1 v le_rfl ha.1.2
        have hkey : asciiB (34 :: (escBody escOr k ++ [34])) := by
          intro x hx
          simp only [List.mem_cons, List.mem_append, List.mem_singleton, List.not_mem_nil,
          or_false] at hx
          rcases hx with h | h | h
          · omega
          · exact escBody_ascii ha.1.1 x h
          · omega
        cases r with
        | nil =>
          rw [show dumpsMems escOr [(k, v)] =
            (34 :: (escBody escOr k ++ [34])) ++ 58 :: dumpsRaw escOr v from rfl]
          intro x hx
          rcases List.mem_append.1 hx with h | h
          · exact hkey x h
          · rcases List.mem_cons.1 h with h | h
            · omega
            · exact hv x h
        | cons m2 r2 =>
          obtain ⟨k2, v2⟩ := m2
          have hr := (IH (jsizeM ((k2, v2) :: r2)) (by have := jsize_pos v; omega)).2.2
            ((k2, v2) :: r2) le_rfl ha.2
          rw [show dumpsMems escOr ((k, v) :: (k2, v2) :: r2) =
            (34 :: (escBody escOr k ++ [34])) ++
              58 :: dumpsRaw escOr v ++ 44 :: dumpsMems escOr ((k2, v2) :: r2) from rfl]
          intro x hx
          rcases List.mem_append.1 hx with h | h
          · rcases List.mem_append.1 h with h | h
            · exact hkey x h
            · rcases List.mem_cons.1 h with h | h
              · omega
              · exact hv x h
          · rcases List.mem_cons.1 h with h | h
            · omega
            · exact hr x h

theorem dumps_eq_main : ∀ N : Nat,
    (∀ v : Jv, jsize v ≤ N → asciiJv v = true → dumpsRaw escOr v = dumpsRaw escStd v) ∧
    (∀ l : List Jv, jsizeL l ≤ N → asciiL l = true →
      dumpsItems escOr l = dumpsItems escStd l) ∧
    (∀ kvs : List (Bytes × Jv), jsizeM kvs ≤ N → asciiM kvs = true →
      dumpsMems escOr kvs = dumpsMems escStd kvs) := by
  intro N
  induction N using Nat.strong_induction_on with
  | _ N IH =>
    refine ⟨?_, ?_, ?_⟩
    · intro v hN ha
      cases v with
      | null => rfl
      | bool b => cases b <;> rfl
      | num n => rfl
      | str s =>
        show (34 : Nat) :: (escBody escOr s ++ [34]) = 34 :: (escBody escStd s ++ [34])
        rw [escBody_stdlib (by simpa [asciiJv] using ha)]
      | arr l =>
        have h1 : jsize (Jv.arr l) = 1 + jsizeL l := rfl
        have h2 := (IH (jsizeL l) (by omega)).2.1 l le_rfl (by simpa [asciiJv] using ha)
        show (91 : Nat) :: (dumpsItems escOr l ++ [93]) = 91 :: (dumpsItems escStd l ++ [93])
        rw [h2]
      | obj kvs =>
        have h1 : jsize (Jv.obj kvs) = 1 + jsizeM kvs := rfl
        have h2 := (IH (jsizeM kvs) (by omega)).2.2 kvs le_rfl (by simpa [asciiJv] using ha)
        show (123 : Nat) :: (dumpsMems escOr kvs ++ [125]) =
          123 :: (dumpsMems escStd kvs ++ [125])
        rw [h2]
    · intro l hN ha
      cases l with
      | nil => rfl
      | cons v r =>
        have h1 : jsizeL (v :: r) = 1 + jsize v + jsizeL r := rfl
        simp only [asciiL, Bool.and_eq_true] at ha
        have hv := (IH (jsize v) (by omega)).1 v le_rfl ha.1
        cases r with
        | nil => exact hv
        | cons v2 r2 =>
          have hr := (IH (jsizeL (v2 :: r2)) (by have := jsize_pos v; omega)).2.1 (v2 :: r2)
            le_rfl ha.2
          show dumpsRaw escOr v ++ 44 :: dumpsItems escOr (v2 :: r2) =
            dumpsRaw escStd v ++ 44 :: dumpsItems escStd (v2 :: r2)
          rw [hv, hr]
    · intro kvs hN ha
      cases kvs with
      | nil => rfl
      | cons m0 r =>
        obtain ⟨k, v⟩ := m0
        have h1 : jsizeM ((k, v) :: r) = 1 + jsize v + jsizeM r := rfl
        simp only [asciiM, Bool.and_eq_true] at ha
        have hv := (IH (jsize v) (by omega)).1 v le_rfl ha.1.2
        have hk := escBody_stdlib ha.1.1
        cases r with
        | nil =>
          show (34 : Nat) :: (escBody escOr k ++ [34]) ++ 58 :: dumpsRaw escOr v =
            34 :: (escBody escStd k ++ [34]) ++ 58 :: dumpsRaw escStd v
          rw [hv, hk]
        | cons m2 r2 =>
          obtain ⟨k2, v2⟩ := m2
          have hr := (IH (jsizeM ((k2, v2) :: r2)) (by have := jsize_pos v; omega)).2.2
            ((k2, v2) :: r2) le_rfl ha.2
          show (34 : Nat) :: (escBody escOr k ++ [34]) ++
              58 :: dumpsRaw escOr v ++ 44 :: dumpsMems escOr ((k2, v2) :: r2) =
            34 :: (escBody escStd k ++ [34]) ++
              58 :: dumpsRaw escStd v ++ 44 :: dumpsMems escStd ((k2, v2) :: r2)
          rw [hv, hk, hr]

theorem asciiL_eq (l : List Jv) : asciiL l = l.all asciiJv := by
  induction l with
  | nil => rfl
  | cons v r ih => simp [asciiL, ih]

theorem asciiM_eq (l : List (Bytes × Jv)) :
    asciiM l = l.all (fun kv => kv.1.all (· < 128) && asciiJv kv.2) := by
  induction l with
  | nil => rfl
  | cons m r ih => obtain ⟨k, v⟩ := m; simp [asciiM, ih]

theorem sortJv_ascii : ∀ N : Nat,
    (∀ v : Jv, jsize v ≤ N → asciiJv v = true → asciiJv (sortJv v) = true) ∧
    (∀ l : List Jv, jsizeL l ≤ N → asciiL l = true → asciiL (sortJvList l) = true) ∧
    (∀ kvs : List (Bytes × Jv), jsizeM kvs ≤ N → asciiM kvs = true →
      asciiM (sortJvMems kvs) = true) := by
  intro N
  induction N using Nat.strong_induction_on with
  | _ N IH =>
    refine ⟨?_, ?_, ?_⟩
    · intro v hN ha
      cases v with
      | null => exact ha
      | bool b => exact ha
      | num n => exact ha
      | str s => exact ha
      | arr l =>
        have h1 : jsize (Jv.arr l) = 1 + jsizeL l := rfl
        exact (IH (jsizeL l) (by omega)).2.1 l le_rfl (by simpa [asciiJv] using ha)
      | obj kvs =>
        have h1 : jsize (Jv.obj kvs) = 1 + jsizeM kvs := rfl
        have h2 := (IH (jsizeM kvs) (by omega)).2.2 kvs le_rfl (by simpa [asciiJv] using ha)
        show asciiM (sortKvs (sortJvMems kvs)) = true
        have hperm : (sortKvs (sortJvMems kvs)).Perm (sortJvMems kvs) :=
          List.perm_insertionSort _ _
        rw [asciiM_eq, all_perm hperm, ← asciiM_eq]
        exact h2
    · intro l hN ha
      cases l with
      | nil => exact ha
      | cons v r =>
        have h1 : jsizeL (v :: r) = 1 + jsize v + jsizeL r := rfl
        simp only [asciiL, Bool.and_eq_true] at ha
        have hv := (IH (jsize v) (by omega)).1 v le_rfl ha.1
        have hr := (IH (jsizeL r) (by have := jsize_pos v; omega)).2.1 r le_rfl ha.2
        show asciiL (sortJv v :: sortJvList r) = true
        simp [asciiL, hv, hr]
    · intro kvs hN ha
      cases kvs with
      | nil => exact ha
      | cons m0 r =>
        obtain ⟨k, v⟩ := m0
        have h1 : jsizeM ((k, v) :: r) = 1 + jsize v + jsizeM r := rfl
        simp only [asciiM, Bool.and_eq_true] at ha
        have hv := (IH (jsize v) (by omega)).1 v le_rfl ha.1.2
        have hr := (IH (jsizeM r) (by have := jsize_pos v; omega)).2.2 r le_rfl ha.2
        show asciiM ((k, sortJv v) :: sortJvMems r) = true
        simp [asciiM, hv, hr, ha.1.1]

/-- On ASCII values the two canonical serializers agree byte for byte. -/
theorem orjson_eq_stdlib {v : Jv} (h : asciiJv v = true) : orjsonDumps v = stdlibDumps v :=
  (dumps_eq_main (jsize (sortJv v))).1 (sortJv v) le_rfl
    ((sortJv_ascii (jsize v)).1 v le_rfl h)

/-- The canonical serialization of an ASCII value is ASCII. -/
theorem orjsonDumps_ascii {v : Jv} (h : asciiJv v = true) : asciiB (orjsonDumps v) :=
  (dumps_ascii_main (jsize (sortJv v))).1 (sortJv v) le_rfl
    ((sortJv_ascii (jsize v)).1 v le_rfl h)

/-! ## Lemmas: JWS compact signing and verification -/

theorem asciiB_bytesB {b : Bytes} (h : asciiB b) : bytesB b := fun c hc => by
  have := h c hc; omega

theorem asciiJv_jwsHeader {kid : Bytes} (hkid : kid.all (· < 128) = true) :
    asciiJv (jwsHeader kid) = true := by
  simp [jwsHeader, asciiJv, asciiM, hkid, bs]

theorem jws_split (H P S : Bytes) (hH : ∀ c ∈ H, c ≠ 46) (hP : ∀ c ∈ P, c ≠ 46)
    (hS : ∀ c ∈ S, c ≠ 46) :
    splitOnDot ((H ++ 46 :: P) ++ 46 :: S) = [H, P, S] := by
  rw [List.append_assoc, List.cons_append, splitOnDot_append _ hH,
    splitOnDot_append _ hP, splitOnDot_dotfree hS]

theorem jws_count (H P S : Bytes) (hH : ∀ c ∈ H, c ≠ 46) (hP : ∀ c ∈ P, c ≠ 46)
    (hS : ∀ c ∈ S, c ≠ 46) :
    ((H ++ 46 :: P) ++ 46 :: S).count 46 = 2 := by
  simp [List.count_append, List.count_cons, count_dotfree hH, count_dotfree hP,
    count_dotfree hS]

/-- `verify_jws` round-trips `jws_compact_sign` under the signing key's
`kid`: the certificate validates and the payload comes back (with objects
key-sorted, as serialized). -/
theorem verify_jws_sign (C : Crypto) (keyring : List (Bytes × Bytes)) (sk kid : Bytes) (p : Jv)
    (hk : lookupB keyring kid = some sk)
    (hkid : kid.all (· < 128) = true)
    (hp : asciiJv p = true)
    (hsig : bytesB (C.edSign sk (signingInput kid p))) :
    verify_jws C keyring (jws_compact_sign C p sk kid) = .valid kid (sortJv p) := by
  have hH := b64e_ne_dot (orjsonDumps (jwsHeader kid))
  have hP := b64e_ne_dot (orjsonDumps p)
  have hS := b64e_ne_dot (C.edSign sk (signingInput kid p))
  have hsi : signingInput kid p =
      b64e (orjsonDumps (jwsHeader kid)) ++ 46 :: b64e (orjsonDumps p) := rfl
  have hjws : jws_compact_sign C p sk kid =
      (b64e (orjsonDumps (jwsHeader kid)) ++ 46 :: b64e (orjsonDumps p)) ++
        46 :: b64e (C.edSign sk (signingInput kid p)) := rfl
  have hcnt := jws_count _ _ _ hH hP hS
  have hsplit := jws_split _ _ _ hH hP hS
  have hdH : b64d (b64e (orjsonDumps (jwsHeader kid))) = some (orjsonDumps (jwsHeader kid)) :=
    b64d_b64e (asciiB_bytesB (orjsonDumps_ascii (asciiJv_jwsHeader hkid)))
  have hdP : b64d (b64e (orjsonDumps p)) = some (orjsonDumps p) :=
    b64d_b64e (asciiB_bytesB (orjsonDumps_ascii hp))
  have hdS : b64d (b64e (C.edSign sk (signingInput kid p))) =
      some (C.edSign sk (signingInput kid p)) := b64d_b64e hsig
  have hlh : orjsonLoads (orjsonDumps (jwsHeader kid)) = some (jwsHeader kid) := by
    rw [orjsonLoads_orjsonDumps]
    rfl
  have hlp := orjsonLoads_orjsonDumps p
  have hne : ¬((b64e (orjsonDumps (jwsHeader kid)) ++ 46 :: b64e (orjsonDumps p)) ++
      46 :: b64e (C.edSign sk (signingInput kid p)) = [] ∨
      (((b64e (orjsonDumps (jwsHeader kid)) ++ 46 :: b64e (orjsonDumps p)) ++
        46 :: b64e (C.edSign sk (signingInput kid p))).count 46 ≠ 2)) := by
    rw [hcnt]
    simp
  rw [hjws]
  unfold verify_jws
  rw [if_neg hne, hsplit]
  simp only [hdH, hlh, hk, hdS, hdP, hlp, ← hsi,
    show objGet (jwsHeader kid) (bs "kid") = some (.str kid) from rfl, if_pos rfl]
  simp

/-- Altering the payload segment of a compact JWS defeats verification:
whatever the altered bytes are, `verify_jws` does not return `valid`. -/
theorem verify_jws_tamper (C : Crypto) (keyring : List (Bytes × Bytes)) (sk kid : Bytes)
    (p : Jv) (p' : Bytes)
    (hinj : ∀ m1 m2, C.edSign sk m1 = C.edSign sk m2 → m1 = m2)
    (hk : lookupB keyring kid = some sk)
    (hkid : kid.all (· < 128) = true)
    (hsig : bytesB (C.edSign sk (signingInput kid p)))
    (hne : p' ≠ b64e (orjsonDumps p)) :
    ∀ kid2 pl, verify_jws C keyring
      ((b64e (orjsonDumps (jwsHeader kid)) ++ 46 :: p') ++
        46 :: b64e (C.edSign sk (signingInput kid p))) ≠ .valid kid2 pl := by
  intro kid2 pl
  have hH := b64e_ne_dot (orjsonDumps (jwsHeader kid))
  have hS := b64e_ne_dot (C.edSign sk (signingInput kid p))
  by_cases hdot : (46 : Nat) ∈ p'
  · -- an inserted dot breaks the two-dot shape: HTTP 400
    have h1 : p'.count 46 ≥ 1 := List.count_pos_iff.2 hdot
    have hcnt : ((b64e (orjsonDumps (jwsHeader kid)) ++ 46 :: p') ++
        46 :: b64e (C.edSign sk (signingInput kid p))).count 46 ≠ 2 := by
      rw [List.count_append, List.count_append, List.count_cons_self, List.count_cons_self,
        count_dotfree hH, count_dotfree hS]
      omega
    unfold verify_jws
    rw [if_pos (Or.inr hcnt)]
    simp
  · -- no dot: the signature check fails on the altered signing input
    have hP : ∀ c ∈ p', c ≠ 46 := fun c hc he => hdot (he ▸ hc)
    have hsplit := jws_split _ p' _ hH hP hS
    have hcnt := jws_count _ p' _ hH hP hS
    have hnemp : ¬((b64e (orjsonDumps (jwsHeader kid)) ++ 46 :: p') ++
        46 :: b64e (C.edSign sk (signingInput kid p)) = [] ∨
        (((b64e (orjsonDumps (jwsHeader kid)) ++ 46 :: p') ++
          46 :: b64e (C.edSign sk (signingInput kid p))).count 46 ≠ 2)) := by
      rw [hcnt]
      simp
    have hdH : b64d (b64e (orjsonDumps (jwsHeader kid))) =
        some (orjsonDumps (jwsHeader kid)) :=
      b64d_b64e (asciiB_bytesB (orjsonDumps_ascii (asciiJv_jwsHeader hkid)))
    have hlh : orjsonLoads (orjsonDumps (jwsHeader kid)) = some (jwsHeader kid) := by
      rw [orjsonLoads_orjsonDumps]
      rfl
    have hdS : b64d (b64e (C.edSign sk (signingInput kid p))) =
        some (C.edSign sk (signingInput kid p)) := b64d_b64e hsig
    have hsigne : ¬(C.edSign sk (signingInput kid p) =
        C.edSign sk (b64e (orjsonDumps (jwsHeader kid)) ++ 46 :: p')) := by
      intro he
      have := hinj _ _ he
      rw [show signingInput kid p =
        b64e (orjsonDumps (jwsHeader kid)) ++ 46 :: b64e (orjsonDumps p) from rfl] at this
      have := List.append_cancel_left this
      simp only [List.cons.injEq] at this
      exact hne this.2.symm
    unfold verify_jws
    rw [if_neg hnemp, hsplit]
    simp only [hdH, hlh, hk, hdS,
      show objGet (jwsHeader kid) (bs "kid") = some (.str kid) from rfl, if_neg hsigne]
    simp

/-! ## Lemmas: the decision engine -/

/-- The certificate of a response object. -/
def respCert (r : Jv) : Bytes :=
  match objGet r (bs "certificate_jws") with
  | some (.str s) => s
  | _ => []

/-- The `proof_id` of a response object. -/
def respProof (r : Jv) : Bytes :=
  match objGet r (bs "proof_id") with
  | some (.str s) => s
  | _ => []

theorem lookupB_append_fresh {α : Type} {l : List (Bytes × α)} {k : Bytes} {v : α}
    (h : lookupB l k = none) : lookupB (l ++ [(k, v)]) k = some v := by
  induction l with
  | nil => simp [lookupB]
  | cons x r ih =>
    obtain ⟨k2, v2⟩ := x
    by_cases he : k2 = k
    · simp [lookupB, he] at h
    · simp only [lookupB, he, if_neg he, List.cons_append] at h ⊢
      exact ih h

theorem resolveBit_ne_need {d0 : Decision} {obls : List Bytes} {oracle : Except Unit Bool}
    {d : Decision} {l : List Bytes} (h : resolveBit d0 obls oracle = .ok (d, l)) :
    d = .PASS ∨ d = .HOLD_HUMAN := by
  unfold resolveBit at h
  by_cases h0 : d0 = .NEED_ONE_BIT
  · rw [if_pos h0] at h
    cases oracle with
    | error e => simp at h
    | ok bit =>
      simp only [Except.ok.injEq, Prod.mk.injEq] at h
      cases bit with
      | true => left; exact h.1.symm
      | false => right; exact h.1.symm
  · rw [if_neg h0] at h
    simp only [Except.ok.injEq, Prod.mk.injEq] at h
    cases d0 with
    | PASS => left; exact h.1.symm
    | NEED_ONE_BIT => exact absurd rfl h0
    | HOLD_HUMAN => right; exact h.1.symm

theorem resolveBit_obls {d0 : Decision} {obls : List Bytes} {oracle : Except Unit Bool}
    {d : Decision} {l : List Bytes} (h : resolveBit d0 obls oracle = .ok (d, l)) :
    l = obls ∨ l = obls ++ [bs "worldcheck_queried"] := by
  unfold resolveBit at h
  by_cases h0 : d0 = .NEED_ONE_BIT
  · rw [if_pos h0] at h
    cases oracle with
    | error e => simp at h
    | ok bit =>
      simp only [Except.ok.injEq, Prod.mk.injEq] at h
      right; exact h.2.symm
  · rw [if_neg h0] at h
    simp only [Except.ok.injEq, Prod.mk.injEq] at h
    left; exact h.2.symm

theorem decide_cached (C : Crypto) (req : DecideIn) (idemKey : Option Bytes) (now : Bytes)
    (oracle : Except Unit Bool) (st : St) (cached : Jv)
    (hhit : lookupB st.idem (effKey C req idemKey) = some cached) :
    Decider.decide C req idemKey now oracle st = .ok (cached, st) := by
  unfold Decider.decide
  dsimp only
  rw [hhit]

theorem decide_fresh_eq (C : Crypto) (req : DecideIn) (idemKey : Option Bytes) (now : Bytes)
    (oracle : Except Unit Bool) (st : St)
    (hmiss : lookupB st.idem (effKey C req idemKey) = none) :
    Decider.decide C req idemKey now oracle st =
      match Decider.decideFresh C req now oracle st (effKey C req idemKey) with
      | .error e => .error e
      | .ok (out, row) => .ok (out, Decider.commit st (effKey C req idemKey) row out) := by
  unfold Decider.decide
  dsimp only
  rw [hmiss]

/-- Anatomy of a successful fresh computation: the kernel output was
resolved to `PASS`/`HOLD_HUMAN`, the active key was found, and response and
row are built from the bundle, signature, `proof_id` and certificate. -/
theorem decideFresh_spec (C : Crypto) (req : DecideIn) (now : Bytes)
    (oracle : Except Unit Bool) (st : St) (ik : Bytes) (out : Jv) (row : RowData)
    (h : Decider.decideFresh C req now oracle st ik = .ok (out, row)) :
    ∃ d obls sk,
      resolveBit (decide_json st.params req.amount req.country req.ts req.recent).decision
          (decide_json st.params req.amount req.country req.ts req.recent).obligations oracle
        = .ok (d, obls) ∧
      lookupB st.keyring st.activeKid = some sk ∧
      (d = .PASS ∨ d = .HOLD_HUMAN) ∧
      out = outJv d obls st.params.kernel_id st.params.param_hash st.activeKid
        (b64std (C.edSign sk
          (stdlibDumps (mkBundle now d obls st.params.kernel_id st.params.param_hash req))))
        (C.sha256hex
          (orjsonDumps (mkBundle now d obls st.params.kernel_id st.params.param_hash req) ++
            124 :: b64std (C.edSign sk
              (stdlibDumps (mkBundle now d obls st.params.kernel_id st.params.param_hash req)))))
        (jws_compact_sign C
          (certPayload now d obls st.params.kernel_id st.params.param_hash req
            (C.sha256hex
              (orjsonDumps (mkBundle now d obls st.params.kernel_id st.params.param_hash req) ++
                124 :: b64std (C.edSign sk
                  (stdlibDumps
                    (mkBundle now d obls st.params.kernel_id st.params.param_hash req))))))
          sk st.activeKid) ∧
      row = { kernel_id := st.params.kernel_id, param_hash := st.params.param_hash,
              bundle := mkBundle now d obls st.params.kernel_id st.params.param_hash req,
              proof_id := C.sha256hex
                (orjsonDumps (mkBundle now d obls st.params.kernel_id st.params.param_hash req) ++
                  124 :: b64std (C.edSign sk
                    (stdlibDumps
                      (mkBundle now d obls st.params.kernel_id st.params.param_hash req)))),
              certificate_jws := jws_compact_sign C
                (certPayload now d obls st.params.kernel_id st.params.param_hash req
                  (C.sha256hex
                    (orjsonDumps
                      (mkBundle now d obls st.params.kernel_id st.params.param_hash req) ++
                      124 :: b64std (C.edSign sk
                        (stdlibDumps
                          (mkBundle now d obls st.params.kernel_id st.params.param_hash req))))))
                sk st.activeKid,
              idempotency_key := ik } := by
  unfold Decider.decideFresh at h
  dsimp only at h
  cases hres : resolveBit (decide_json st.params req.amount req.country req.ts req.recent).decision
      (decide_json st.params req.amount req.country req.ts req.recent).obligations oracle with
  | error e => rw [hres] at h; simp at h
  | ok dp =>
    obtain ⟨d, obls⟩ := dp
    rw [hres] at h
    cases hkr : lookupB st.keyring st.activeKid with
    | none => rw [hkr] at h; simp at h
    | some sk =>
      rw [hkr] at h
      simp only [attestorSign, Except.ok.injEq, Prod.mk.injEq] at h
      refine ⟨d, obls, sk, rfl, rfl, resolveBit_ne_need hres, ?_, ?_⟩
      · exact h.1.symm
      · exact h.2.symm

/-! ## Lemmas: the anchor worker's Merkle computation -/

theorem pairRound_chunk2 (C : Crypto) : ∀ l : List Bytes, pairRound C l = chunk2 C (padDup l)
  | [] => by simp [pairRound, chunk2, padDup]
  | [a] => by simp [pairRound, chunk2, padDup]
  | a :: b :: rest => by
    rw [show pairRound C (a :: b :: rest) =
      C.sha256hex (a ++ b) :: pairRound C rest from rfl]
    rw [pairRound_chunk2 C rest]
    unfold padDup
    by_cases h : rest.length % 2 = 1
    · have hlen : (a :: b :: rest).length % 2 = 1 := by
        simp only [List.length_cons]
        omega
      have hne : rest ≠ [] := by
        intro he
        subst he
        simp at h
      rw [if_pos hlen, if_pos h]
      have hlast : (a :: b :: rest).getLastD [] = rest.getLastD [] := by
        rw [List.getLastD_cons, List.getLastD_cons]
        cases rest with
        | nil => exact absurd rfl hne
        | cons x xs =>
          rw [List.getLastD_cons, List.getLastD_cons]
      rw [hlast]
      rfl
    · have hlen : ¬(a :: b :: rest).length % 2 = 1 := by
        simp only [List.length_cons]
        omega
      rw [if_neg hlen, if_neg h]
      rfl

theorem merkleLoopAux_spec (C : Crypto) : ∀ (f : Nat) (l : List Bytes),
    merkleLoopAux C f l = merkleSpecAux C f l := by
  intro f
  induction f with
  | zero => intro l; rfl
  | succ f ih =>
    intro l
    match l with
    | [] => rfl
    | [x] => rfl
    | a :: b :: rest =>
      rw [show merkleLoopAux C (f + 1) (a :: b :: rest) =
        merkleLoopAux C f (pairRound C (a :: b :: rest)) from rfl]
      rw [show merkleSpecAux C (f + 1) (a :: b :: rest) =
        merkleSpecAux C f (chunk2 C (padDup (a :: b :: rest))) from rfl]
      rw [pairRound_chunk2, ih]

/-- The worker's Merkle computation is exactly the fixed algorithm the
specification states. -/
theorem merkle_eq_spec (C : Crypto) (leaves : List Bytes) :
    merkle C leaves = merkleSpec C leaves := by
  unfold merkle merkleSpec
  by_cases h : leaves = []
  · rw [if_pos h, if_pos h]
  · rw [if_neg h, if_neg h, merkleLoopAux_spec]

/-- A single leaf's root is the hex SHA-256 of the leaf bytes. -/
theorem merkle_single (C : Crypto) (l : Bytes) : merkle C [l] = some (C.sha256hex l) := by
  rfl

/-! ## Lemmas: anchor ranges -/

theorem maxToId_snoc (l : List Anchor) (a : Anchor) :
    maxToId (l ++ [a]) = max (maxToId l) a.to_id := by
  unfold maxToId
  rw [List.foldl_append]
  rfl

theorem anchorsChain_iff : ∀ l : List Anchor,
    anchorsChain l = true ↔
      ((∀ a ∈ l, a.from_id ≤ a.to_id) ∧ List.Chain' (fun a b => a.to_id < b.from_id) l)
  | [] => by simp [anchorsChain]
  | [a] => by simp [anchorsChain]
  | a :: b :: r => by
    have ih := anchorsChain_iff (b :: r)
    simp only [anchorsChain, Bool.and_eq_true, decide_eq_true_eq, ih,
      List.chain'_cons, List.mem_cons]
    constructor
    · rintro ⟨⟨h1, h2⟩, h3, h4⟩
      exact ⟨fun x hx => by rcases hx with rfl | hx; exact h1; exact h3 x (by simpa using hx),
        h2, h4⟩
    · rintro ⟨h1, h2, h3⟩
      exact ⟨⟨h1 a (Or.inl rfl), h2⟩, fun x hx => h1 x (Or.inr hx), h3⟩

theorem anchorsAdjacent_iff : ∀ l : List Anchor,
    anchorsAdjacent l = true ↔ List.Chain' (fun a b => a.to_id + 1 = b.from_id) l
  | [] => by simp [anchorsAdjacent]
  | [a] => by simp [anchorsAdjacent]
  | a :: b :: r => by
    have ih := anchorsAdjacent_iff (b :: r)
    simp only [anchorsAdjacent, Bool.and_eq_true, beq_iff_eq, ih, List.chain'_cons]

theorem anchorsContiguous_iff (l : List Anchor) :
    anchorsContiguous l = true ↔
      ((∀ a ∈ l.head?, a.from_id = 1) ∧
        List.Chain' (fun a b => a.to_id + 1 = b.from_id) l) := by
  cases l with
  | nil => simp [anchorsContiguous]
  | cons a t =>
    simp [anchorsContiguous, anchorsAdjacent_iff]

/-- The `coalesce(max(to_id), 0)` read agrees with the last anchor. -/
def LastMax (anchors : List Anchor) : Prop :=
  match anchors.getLast? with
  | none => maxToId anchors = 0
  | some a => maxToId anchors = a.to_id

theorem lastMax_nil : LastMax [] := rfl

theorem lastMax_snoc {anchors : List Anchor} {new : Anchor}
    (hgt : maxToId anchors < new.to_id) : LastMax (anchors ++ [new]) := by
  unfold LastMax
  rw [List.getLast?_concat, maxToId_snoc]
  simp [Nat.max_eq_right (Nat.le_of_lt hgt)]

theorem getLastD_mem : ∀ (l : List (Nat × Bytes)) (d : Nat × Bytes), l ≠ [] →
    l.getLastD d ∈ l
  | [a], _, _ => by simp [List.getLastD]
  | a :: b :: r, d, _ => by
    rw [List.getLastD_cons]
    exact List.mem_cons_of_mem a (getLastD_mem (b :: r) a (by simp))

theorem head_le_getLastD {r0 : Nat × Bytes} {rest : List (Nat × Bytes)}
    (h : (r0 :: rest).Pairwise (fun a b => a.1 < b.1)) :
    r0.1 ≤ ((r0 :: rest).getLastD r0).1 := by
  have hmem := getLastD_mem (r0 :: rest) r0 (by simp)
  rcases List.mem_cons.1 hmem with he | hm
  · rw [he]
  · exact Nat.le_of_lt ((List.pairwise_cons.1 h).1 _ hm)

theorem rows_sorted {L : List (Nat × Bytes)} (hL : L.Pairwise (fun a b => a.1 < b.1))
    (s n : Nat) :
    ((L.filter (fun r => s ≤ r.1)).take n).Pairwise (fun a b => a.1 < b.1) :=
  (hL.filter _).sublist (List.take_sublist n _)

theorem rows_ge {L : List (Nat × Bytes)} {s n : Nat} {r : Nat × Bytes}
    (h : r ∈ (L.filter (fun x => s ≤ x.1)).take n) : s ≤ r.1 := by
  have h1 := List.mem_of_mem_take h
  have h2 := List.of_mem_filter h1
  simpa using h2

/-- One worker cycle preserves well-formed, strictly separated ranges. -/
theorem anchorStep_chain (C : Crypto) (L : List (Nat × Bytes)) (anchors : List Anchor)
    (hL : L.Pairwise (fun a b => a.1 < b.1))
    (h1 : anchorsChain anchors = true) (h2 : LastMax anchors) :
    anchorsChain (anchorStep C L anchors) = true ∧ LastMax (anchorStep C L anchors) := by
  unfold anchorStep
  dsimp only
  cases hrows : (L.filter (fun r => maxToId anchors + 1 ≤ r.1)).take 1000 with
  | nil => exact ⟨h1, h2⟩
  | cons r0 rest =>
    have hsorted : (r0 :: rest).Pairwise (fun a b => a.1 < b.1) := by
      rw [← hrows]
      exact rows_sorted hL _ _
    have hge : maxToId anchors + 1 ≤ r0.1 :=
      rows_ge (hrows ▸ List.mem_cons_self r0 rest)
    have hft : r0.1 ≤ ((r0 :: rest).getLastD r0).1 := head_le_getLastD hsorted
    constructor
    · rw [anchorsChain_iff]
      rw [anchorsChain_iff] at h1
      refine ⟨?_, ?_⟩
      · intro a ha
        rcases List.mem_append.1 ha with ha | ha
        · exact h1.1 a ha
        · simp only [List.mem_singleton] at ha
          subst ha
          exact hft
      · rw [List.chain'_append]
        refine ⟨h1.2, List.chain'_singleton _, ?_⟩
        intro x hx y hy
        simp only [List.head?_cons, Option.mem_def, Option.some.injEq] at hy
        subst hy
        unfold LastMax at h2
        cases hlast : anchors.getLast? with
        | none => simp [hlast] at hx
        | some a2 =>
          rw [hlast] at h2
          simp only [hlast, Option.mem_def, Option.some.injEq] at hx
          subst hx
          dsimp only
          omega
    · exact lastMax_snoc (by dsimp only; omega)

/-- Over any sequence of id-sorted ledger snapshots, the worker produces
well-formed, monotonically separated, non-overlapping ranges. -/
theorem runAnchors_chain (C : Crypto) (snaps : List (List (Nat × Bytes)))
    (h : ∀ L ∈ snaps, L.Pairwise (fun a b => a.1 < b.1)) :
    anchorsChain (runAnchors C snaps) = true := by
  suffices H : ∀ (ss : List (List (Nat × Bytes))) (acc : List Anchor),
      (∀ L ∈ ss, L.Pairwise (fun a b => a.1 < b.1)) →
      anchorsChain acc = true → LastMax acc →
      anchorsChain (ss.foldl (fun anchors L => anchorStep C L anchors) acc) = true by
    exact H snaps [] h rfl lastMax_nil
  intro ss
  induction ss with
  | nil => intro acc _ hc _; exact hc
  | cons L ss ih =>
    intro acc hs hc hm
    have hstep := anchorStep_chain C L acc (hs L (by simp)) hc hm
    exact ih (anchorStep C L acc) (fun L2 hL2 => hs L2 (by simp [hL2])) hstep.1 hstep.2

/-! A gapless ledger: row ids are consecutive from a given serial. -/

/-- The ledger rows `(k, p₀), (k+1, p₁), …` for proof ids `ps`. -/
def idsFrom (k : Nat) : List Bytes → List (Nat × Bytes)
  | [] => []
  | p :: r => (k, p) :: idsFrom (k + 1) r

theorem idsFrom_filter : ∀ (ps : List Bytes) (k s : Nat),
    (idsFrom k ps).filter (fun r => s ≤ r.1) = idsFrom (max k s) (ps.drop (s - k)) := by
  intro ps
  induction ps with
  | nil => intro k s; simp [idsFrom]
  | cons p r ih =>
    intro k s
    by_cases hks : s ≤ k
    · rw [show idsFrom k (p :: r) = (k, p) :: idsFrom (k + 1) r from rfl]
      rw [List.filter_cons_of_pos (by simpa using hks), ih (k + 1) s]
      rw [Nat.max_eq_left (by omega), Nat.max_eq_left hks,
        show s - (k + 1) = 0 from by omega, show s - k = 0 from by omega]
      simp [idsFrom]
    · rw [show idsFrom k (p :: r) = (k, p) :: idsFrom (k + 1) r from rfl]
      rw [List.filter_cons_of_neg (by simpa using hks), ih (k + 1) s]
      rw [Nat.max_eq_right (by omega), Nat.max_eq_right (by omega)]
      rw [show (p :: r).drop (s - k) = r.drop (s - k - 1) from by
        rw [show s - k = (s - k - 1) + 1 from by omega]
        rfl]
      rw [show s - (k + 1) = s - k - 1 from by omega]

theorem idsFrom_take : ∀ (ps : List Bytes) (k n : Nat),
    (idsFrom k ps).take n = idsFrom k (ps.take n) := by
  intro ps
  induction ps with
  | nil => intro k n; simp [idsFrom]
  | cons p r ih =>
    intro k n
    cases n with
    | zero => simp [idsFrom]
    | succ n =>
      show ((k, p) :: idsFrom (k + 1) r).take (n + 1) = idsFrom k ((p :: r).take (n + 1))
      rw [List.take_succ_cons, List.take_succ_cons, ih]
      rfl

theorem idsFrom_pairwise : ∀ (ps : List Bytes) (k : Nat),
    (idsFrom k ps).Pairwise (fun a b => a.1 < b.1) := by
  intro ps
  induction ps with
  | nil => intro k; simp [idsFrom]
  | cons p r ih =>
    intro k
    rw [show idsFrom k (p :: r) = (k, p) :: idsFrom (k + 1) r from rfl]
    rw [List.pairwise_cons]
    refine ⟨?_, ih (k + 1)⟩
    intro x hx
    -- every id in `idsFrom (k+1) r` is at least k+1
    have : ∀ (q : List Bytes) (m : Nat), ∀ y ∈ idsFrom m q, m ≤ y.1 := by
      intro q
      induction q with
      | nil => intro m y hy; simp [idsFrom] at hy
      | cons a b ihq =>
        intro m y hy
        rw [show idsFrom m (a :: b) = (m, a) :: idsFrom (m + 1) b from rfl] at hy
        rcases List.mem_cons.1 hy with he | hm
        · subst he; exact le_rfl
        · have := ihq (m + 1) y hm; omega
    have := this r (k + 1) x hx
    show k < x.1
    omega

/-- One worker cycle on a gapless ledger preserves exact contiguity. -/
theorem anchorStep_contig (C : Crypto) (ps : List Bytes) (anchors : List Anchor)
    (h1 : anchorsContiguous anchors = true) (h2 : LastMax anchors) :
    anchorsContiguous (anchorStep C (idsFrom 1 ps) anchors) = true ∧
      LastMax (anchorStep C (idsFrom 1 ps) anchors) := by
  unfold anchorStep
  dsimp only
  have hfil : (idsFrom 1 ps).filter (fun r => maxToId anchors + 1 ≤ r.1) =
      idsFrom (maxToId anchors + 1) (ps.drop (maxToId anchors + 1 - 1)) := by
    rw [idsFrom_filter, Nat.max_eq_right (by omega)]
  rw [hfil, idsFrom_take]
  cases hps : (ps.drop (maxToId anchors + 1 - 1)).take 1000 with
  | nil => exact ⟨h1, h2⟩
  | cons p0 pr =>
    rw [show idsFrom (maxToId anchors + 1) (p0 :: pr) =
      (maxToId anchors + 1, p0) :: idsFrom (maxToId anchors + 1 + 1) pr from rfl]
    dsimp only
    have hsorted : ((maxToId anchors + 1, p0) :: idsFrom (maxToId anchors + 1 + 1) pr).Pairwise
        (fun a b => a.1 < b.1) := by
      have := idsFrom_pairwise (p0 :: pr) (maxToId anchors + 1)
      simpa [idsFrom] using this
    have hft := head_le_getLastD hsorted
    constructor
    · rw [anchorsContiguous_iff]
      rw [anchorsContiguous_iff] at h1
      constructor
      · intro a ha
        cases anchors with
        | nil =>
          simp only [List.nil_append, List.head?_cons, Option.mem_def, Option.some.injEq] at ha
          subst ha
          unfold LastMax at h2
          simp only [List.getLast?_nil] at h2
          dsimp only
          omega
        | cons a0 t =>
          rw [List.cons_append, List.head?_cons] at ha
          simp only [Option.mem_def, Option.some.injEq] at ha
          subst ha
          exact h1.1 a0 (by simp)
      · rw [List.chain'_append]
        refine ⟨h1.2, List.chain'_singleton _, ?_⟩
        intro x hx y hy
        simp only [List.head?_cons, Option.mem_def, Option.some.injEq] at hy
        subst hy
        unfold LastMax at h2
        cases hlast : anchors.getLast? with
        | none => simp [hlast] at hx
        | some a2 =>
          rw [hlast] at h2
          simp only [hlast, Option.mem_def, Option.some.injEq] at hx
          subst hx
          dsimp only
          omega
    · exact lastMax_snoc (by dsimp only; dsimp only at hft; omega)

/-- Over gapless snapshots the anchors are exactly contiguous from 1. -/
theorem runAnchors_contig (C : Crypto) (snaps : List (List Bytes)) :
    anchorsContiguous (runAnchors C (snaps.map (idsFrom 1))) = true := by
  suffices H : ∀ (ss : List (List Bytes)) (acc : List Anchor),
      anchorsContiguous acc = true → LastMax acc →
      anchorsContiguous ((ss.map (idsFrom 1)).foldl
        (fun anchors L => anchorStep C L anchors) acc) = true by
    exact H snaps [] rfl lastMax_nil
  intro ss
  induction ss with
  | nil => intro acc hc _; exact hc
  | cons ps ss ih =>
    intro acc hc hm
    have hstep := anchorStep_contig C ps acc hc hm
    exact ih (anchorStep C (idsFrom 1 ps) acc) hstep.1 hstep.2

/-! ## Lemmas: kernel monotonicity and response structure -/

theorem dOrder_le_two (d : Decision) : dOrder d ≤ 2 := by
  cases d <;> simp [dOrder]

theorem decide_json_monotone (p : Params) (country : Bytes) (ts : Int) (recent : Int)
    {a1 a2 : Int} (h : a1 ≤ a2) :
    dOrder (decide_json p a1 country ts recent).decision ≤
      dOrder (decide_json p a2 country ts recent).decision := by
  unfold decide_json
  dsimp only
  by_cases hc : country ∈ p.allowlist
  · rw [if_pos hc, if_pos hc]
    by_cases h2 : a2 > p.amount_max
    · rw [if_pos h2]
      by_cases h1 : a1 > p.amount_max
      · rw [if_pos h1]
      · rw [if_neg h1]
        by_cases hr : recent > 2
        · rw [if_pos hr]
          exact le_trans (dOrder_le_two _) (by simp [dOrder])
        · rw [if_neg hr]
          by_cases hw : isWeekend ts
          · simp [hw, dOrder]
          · simp [hw, dOrder]
    · rw [if_neg h2, if_neg (show ¬a1 > p.amount_max by omega)]
  · rw [if_neg hc, if_neg hc]

theorem decStr_ascii (d : Decision) : (decStr d).all (· < 128) = true := by
  cases d <;> decide

theorem asciiL_map_str (l : List Bytes) :
    asciiL (l.map .str) = l.all (fun s => s.all (· < 128)) := by
  induction l with
  | nil => rfl
  | cons s r ih => simp [asciiL, asciiJv, ih]

theorem asciiJv_certPayload {now ki ph : Bytes} (d : Decision) {obls : List Bytes}
    {req : DecideIn} {pid : Bytes}
    (h1 : now.all (· < 128) = true) (h2 : ki.all (· < 128) = true)
    (h3 : ph.all (· < 128) = true) (h4 : req.country.all (· < 128) = true)
    (h5 : obls.all (fun s => s.all (· < 128)) = true) (h6 : pid.all (· < 128) = true) :
    asciiJv (certPayload now d obls ki ph req pid) = true := by
  show asciiM _ = true
  simp only [asciiM, asciiJv, inputsJv, asciiL_map_str, Bool.and_eq_true]
  simp [h1, h2, h3, h4, h5, h6, decStr_ascii d,
    (by decide : (List.all (bs "sub") fun x => decide (x < 128)) = true),
    (by decide : (List.all (bs "ts") fun x => decide (x < 128)) = true),
    (by decide : (List.all (bs "decision") fun x => decide (x < 128)) = true),
    (by decide : (List.all (bs "kernel_id") fun x => decide (x < 128)) = true),
    (by decide : (List.all (bs "param_hash") fun x => decide (x < 128)) = true),
    (by decide : (List.all (bs "inputs") fun x => decide (x < 128)) = true),
    (by decide : (List.all (bs "obligations") fun x => decide (x < 128)) = true),
    (by decide : (List.all (bs "proof_id") fun x => decide (x < 128)) = true),
    (by decide : (List.all (bs "amount") fun x => decide (x < 128)) = true),
    (by decide : (List.all (bs "country") fun x => decide (x < 128)) = true),
    (by decide : (List.all (bs "recent") fun x => decide (x < 128)) = true)]

theorem resolveBit_obls_ascii {d0 : Decision} {obls0 : List Bytes}
    {oracle : Except Unit Bool} {d : Decision} {l : List Bytes}
    (h : resolveBit d0 obls0 oracle = .ok (d, l))
    (h0 : obls0.all (fun s => s.all (· < 128)) = true) :
    l.all (fun s => s.all (· < 128)) = true := by
  rcases resolveBit_obls h with he | he <;> subst he
  · exact h0
  · simp only [List.all_append, Bool.and_eq_true]
    exact ⟨h0, by decide⟩

/-- Every ledger row a successful `decide` adds carries the bundle built
by step 4 with a resolved decision. -/
theorem decide_ok_new_row (C : Crypto) (req : DecideIn) (idemKey : Option Bytes) (now : Bytes)
    (oracle : Except Unit Bool) (st : St) (r : Jv) (st' : St)
    (h : Decider.decide C req idemKey now oracle st = .ok (r, st')) :
    ∀ rw ∈ st'.ledger, rw ∈ st.ledger ∨
      ∃ d obls, (d = .PASS ∨ d = .HOLD_HUMAN) ∧
        rw.2.bundle = mkBundle now d obls st.params.kernel_id st.params.param_hash req := by
  intro rw hrw
  cases hl : lookupB st.idem (effKey C req idemKey) with
  | some cached =>
    rw [decide_cached C req idemKey now oracle st cached hl] at h
    simp only [Except.ok.injEq, Prod.mk.injEq] at h
    left
    rw [← h.2] at hrw
    exact hrw
  | none =>
    rw [decide_fresh_eq C req idemKey now oracle st hl] at h
    cases hf : Decider.decideFresh C req now oracle st (effKey C req idemKey) with
    | error e => rw [hf] at h; simp at h
    | ok p =>
      obtain ⟨out, row⟩ := p
      rw [hf] at h
      simp only [Except.ok.injEq, Prod.mk.injEq] at h
      obtain ⟨d, obls, sk, hres, hkr, hdok, hout, hrow⟩ :=
        decideFresh_spec C req now oracle st (effKey C req idemKey) out row hf
      rw [← h.2] at hrw
      unfold Decider.commit at hrw
      dsimp only at hrw
      by_cases hconf : st.ledger.any (fun r2 => r2.2.idempotency_key = effKey C req idemKey) = true
      · rw [if_pos hconf] at hrw
        left
        exact hrw
      · rw [if_neg hconf] at hrw
        rcases List.mem_append.1 hrw with hm | hm
        · left
          exact hm
        · right
          simp only [List.mem_singleton] at hm
          subst hm
          rw [hrow]
          exact ⟨d, obls, hdok, rfl⟩

/-! ## Concrete instances used in closed evaluations

A concrete `Crypto` assignment (the development's theorems are parametric
in the primitives; these instances make closed runs computable: `edSign`
is the keyed concatenation, an injective deterministic scheme). -/

def wCrypto : Crypto := { sha256hex := fun x => 104 :: x, edSign := fun k m => k ++ m }

def wParams : Params :=
  { amount_max := 2500, allowlist := [bs "US"], kernel_id := bs "cm.kernel.v1",
    param_hash := bs "ph1" }

def wSt : St :=
  { idem := [], ledger := [], nextId := 1, params := wParams,
    keyring := [(bs "ed25519:v1", [7])], activeKid := bs "ed25519:v1" }

/-- `{amount: 100, country: "US", ts: 2025-09-16T12:00:00Z, recent: 0}`. -/
def wReq : DecideIn :=
  { amount := 100, country := bs "US", ts := 1758024000, recent := 0, context_id := none }

/-- `{amount: 2800, country: "US", ts: 2025-09-16T12:00:00Z, recent: 0}` —
above the ceiling, so the kernel answers `NEED_ONE_BIT`. -/
def wReqBig : DecideIn :=
  { amount := 2800, country := bs "US", ts := 1758024000, recent := 0, context_id := none }

/-- `{amount: 5000, country: "CA", ts: 2025-09-16T12:00:00Z, recent: 2}`. -/
def wReq5k : DecideIn :=
  { amount := 5000, country := bs "CA", ts := 1758024000, recent := 2, context_id := none }

/-- Project the payload of a successful decision (dummy on error). -/
def exOk (e : Except Err (Jv × St)) : Jv × St :=
  match e with
  | .ok p => p
  | .error _ => (.null, wSt)

theorem headD_mem {α : Type} (d : α) : ∀ (l : List α), l ≠ [] → l.headD d ∈ l
  | [], h => absurd rfl h
  | a :: t, _ => List.mem_cons_self a t

/-- A symbolic crypto whose digests are ASCII (hex-like) bytes, for runs
that feed digests back into signed ASCII payloads. -/
def w8Crypto : Crypto :=
  { sha256hex := fun x => x.map (fun c => c % 16 + 97)
    edSign := fun k m => k ++ m }

/-- A small canonical (key-sorted, ASCII) payload. -/
def w8p : Jv := .obj [(bs "a", .num 1)]

theorem w8_hash_ascii : ∀ x : Bytes, (w8Crypto.sha256hex x).all (· < 128) = true := by
  intro x
  show (x.map (fun c => c % 16 + 97)).all (fun c => decide (c < 128)) = true
  rw [List.all_map]
  apply List.all_eq_true.2
  intro c _
  simp only [Function.comp]
  exact decide_eq_true (by omega)

theorem w8_sig_bytes :
    ∀ pl : Jv, bytesB (w8Crypto.edSign [7] (signingInput (bs "ed25519:v1") pl)) := by
  intro pl c hc
  have hmem : c ∈ ([7] : Bytes) ++ signingInput (bs "ed25519:v1") pl := hc
  rcases List.mem_append.1 hmem with h7 | hm
  · simp at h7
    omega
  · have hmem2 : c ∈ b64e (orjsonDumps (jwsHeader (bs "ed25519:v1"))) ++
        46 :: b64e (orjsonDumps pl) := hm
    rcases List.mem_append.1 hmem2 with h1 | h2
    · have := b64e_lt128 _ c h1
      omega
    · rcases List.mem_cons.1 h2 with h46 | h3
      · omega
      · have := b64e_lt128 _ c h3
        omega

/-! ## Claim theorems -/

/-- C1: the claim says an oracle timeout/error is converted to a signed
`HOLD_HUMAN` decision carrying the obligation `"oracle_unreachable"`.  The
source has no handler around the worldcheck call: evaluating the engine at
a request whose kernel evaluation yields `NEED_ONE_BIT` with a failing
oracle round-trip, the `requests` exception propagates out of `decide`
(HTTP 5xx at the client) and nothing is signed or ledgered. -/
theorem claim_C1_oracle_error_raises :
    (decide_json wParams wReqBig.amount wReqBig.country wReqBig.ts wReqBig.recent).decision =
      .NEED_ONE_BIT ∧
    (match Decider.decide wCrypto wReqBig (some (bs "k1")) (bs "2025-09-16T12:00:05Z")
        (.error ()) wSt with
     | .error .oracleHttp => true
     | _ => false) = true := by
  decide

/-- C2 (counterexample): a concrete committed decision whose request
carried a `ts`: the bundle's `inputs` object exists but holds no `"ts"`
member, so the bundle does not bind the request's `ts`. -/
theorem claim_C2_counterexample :
    (Decider.decide wCrypto wReq (some (bs "k1")) (bs "2025-09-16T12:00:05Z") (.ok true)
        wSt).toOption.map
      (fun p => p.2.ledger.map (fun rw =>
        (objGet rw.2.bundle (bs "inputs")).map (fun i => objGet i (bs "ts")))) =
      some [some none] := by
  decide

/-- C2 (amended): every ledger row a successful `decide` commits carries a
bundle whose `inputs` member records exactly the request's `amount`,
`country` and `recent` — and no `ts` (the bundle's top-level `ts` is the
decision time, not the request instant). -/
theorem claim_C2_bundle_binds_inputs :
    ∀ (C : Crypto) (req : DecideIn) (idemKey : Option Bytes) (now : Bytes)
      (oracle : Except Unit Bool) (st : St) (r : Jv) (st' : St),
      Decider.decide C req idemKey now oracle st = .ok (r, st') →
      ∀ rw ∈ st'.ledger, rw ∈ st.ledger ∨
        (objGet rw.2.bundle (bs "inputs") =
            some (.obj [(bs "amount", .num req.amount), (bs "country", .str req.country),
              (bs "recent", .num req.recent)]) ∧
          (objGet rw.2.bundle (bs "inputs")).bind (fun i => objGet i (bs "ts")) = none) := by
  intro C req idemKey now oracle st r st' h rw hrw
  rcases decide_ok_new_row C req idemKey now oracle st r st' h rw hrw with hm | ⟨d, obls, _, hb⟩
  · left
    exact hm
  · right
    rw [hb]
    exact ⟨rfl, rfl⟩

/-- C2 (witness): the amended statement applied to a concrete run. -/
theorem claim_C2_witness :
    ((exOk (Decider.decide wCrypto wReq (some (bs "k1")) (bs "T1") (.ok true) wSt)).2.ledger.headD
        (0, ⟨[], [], .null, [], [], []⟩) ∈ wSt.ledger ∨
      (objGet ((exOk (Decider.decide wCrypto wReq (some (bs "k1")) (bs "T1") (.ok true)
            wSt)).2.ledger.headD (0, ⟨[], [], .null, [], [], []⟩)).2.bundle (bs "inputs") =
          some (.obj [(bs "amount", .num wReq.amount), (bs "country", .str wReq.country),
            (bs "recent", .num wReq.recent)]) ∧
        (objGet ((exOk (Decider.decide wCrypto wReq (some (bs "k1")) (bs "T1") (.ok true)
            wSt)).2.ledger.headD (0, ⟨[], [], .null, [], [], []⟩)).2.bundle
          (bs "inputs")).bind (fun i => objGet i (bs "ts")) = none)) :=
  claim_C2_bundle_binds_inputs wCrypto wReq (some (bs "k1")) (bs "T1") (.ok true) wSt
    (exOk (Decider.decide wCrypto wReq (some (bs "k1")) (bs "T1") (.ok true) wSt)).1
    (exOk (Decider.decide wCrypto wReq (some (bs "k1")) (bs "T1") (.ok true) wSt)).2
    rfl _ (headD_mem (0, ⟨[], [], .null, [], [], []⟩) _ (by decide))

/-- C3: the replay tool re-evaluates with `bundle.get("amount", 100)`,
`bundle.get("country", "US")`, `bundle.get("ts", …)`, `bundle.get("recent",
0)` — top-level lookups on the stored bundle.  The decider nests the
request data under `bundle["inputs"]`, so for a bundle this decider
committed (here: amount 5000, country "CA", recent 2) the replay
re-evaluation receives the defaults 100/"US"/0, and its `ts` argument is
the bundle's top-level decision timestamp, not the request instant. -/
theorem claim_C3_replay_reads_defaults :
    (Decider.decide wCrypto wReq5k (some (bs "k1")) (bs "T1") (.ok true) wSt).toOption.map
      (fun p => p.2.ledger.map (fun rw =>
        (replayAmountArg rw.2.bundle, replayCountryArg rw.2.bundle,
         replayRecentArg rw.2.bundle, replayTsArg rw.2.bundle,
         (objGet rw.2.bundle (bs "inputs")).bind (fun i => objGet i (bs "amount"))))) =
      some [(.num 100, .str (bs "US"), .num 0, .str (bs "T1"), some (.num 5000))] := by
  decide

/-- C4 (counterexample): two handlers interleave on the same idempotency
key — both miss the cache (both fresh computations run on the same initial
state), the winner commits, then the loser commits.  The loser's response
differs from the committed row's cached response, and its ledger insert is
silently dropped (`ON CONFLICT DO NOTHING`); the engine never re-reads the
committed row. -/
theorem claim_C4_counterexample :
    (match Decider.decideFresh wCrypto wReq (bs "T1") (.ok true) wSt (bs "k1"),
           Decider.decideFresh wCrypto wReq (bs "T2") (.ok true) wSt (bs "k1") with
     | .ok (outA, rowA), .ok (outB, rowB) =>
       (outB != outA) &&
       (lookupB (Decider.commit (Decider.commit wSt (bs "k1") rowA outA) (bs "k1")
         rowB outB).idem (bs "k1") == some outA) &&
       ((Decider.commit (Decider.commit wSt (bs "k1") rowA outA) (bs "k1")
         rowB outB).ledger.length == 1)
     | _, _ => false) = true := by
  decide

/-- C4 (amended): two sequential `decide` calls with the same
`Idempotency-Key` return identical responses — the second call hits the
idempotency cache — and leave the state unchanged.  (Under a concurrent
race the code returns the loser's freshly computed response without
re-reading the committed row; see the counterexample.) -/
theorem claim_C4_sequential_idempotent :
    ∀ (C : Crypto) (req1 req2 : DecideIn) (k now1 now2 : Bytes)
      (or1 or2 : Except Unit Bool) (st : St) (r1 r2 : Jv) (st1 st2 : St),
      Decider.decide C req1 (some k) now1 or1 st = .ok (r1, st1) →
      Decider.decide C req2 (some k) now2 or2 st1 = .ok (r2, st2) →
      r2 = r1 ∧ st2 = st1 := by
  intro C req1 req2 k now1 now2 or1 or2 st r1 r2 st1 st2 h1 h2
  cases hl : lookupB st.idem k with
  | some cached =>
    rw [decide_cached C req1 (some k) now1 or1 st cached hl] at h1
    simp only [Except.ok.injEq, Prod.mk.injEq] at h1
    obtain ⟨hr1, hst1⟩ := h1
    rw [decide_cached C req2 (some k) now2 or2 st1 cached (by rw [← hst1]; exact hl)] at h2
    simp only [Except.ok.injEq, Prod.mk.injEq] at h2
    exact ⟨h2.1.symm.trans hr1, h2.2.symm⟩
  | none =>
    rw [decide_fresh_eq C req1 (some k) now1 or1 st hl] at h1
    cases hf : Decider.decideFresh C req1 now1 or1 st (effKey C req1 (some k)) with
    | error e => rw [hf] at h1; simp at h1
    | ok p =>
      obtain ⟨out, row⟩ := p
      rw [hf] at h1
      simp only [Except.ok.injEq, Prod.mk.injEq] at h1
      obtain ⟨hr1, hst1⟩ := h1
      have hcache : lookupB st1.idem k = some r1 := by
        rw [← hst1]
        unfold Decider.commit
        dsimp only
        rw [if_neg (by rw [show effKey C req1 (some k) = k from rfl, hl]; simp)]
        have hfresh : lookupB (st.idem ++ [(effKey C req1 (some k), out)]) k = some out :=
          lookupB_append_fresh hl
        rw [hfresh, hr1]
      rw [decide_cached C req2 (some k) now2 or2 st1 r1 hcache] at h2
      simp only [Except.ok.injEq, Prod.mk.injEq] at h2
      exact ⟨h2.1.symm, h2.2.symm⟩

/-- C4 (witness): the amended statement applied to a concrete pair of
sequential calls. -/
theorem claim_C4_witness :
    (exOk (Decider.decide wCrypto wReq (some (bs "k1")) (bs "T2") (.ok true)
        (exOk (Decider.decide wCrypto wReq (some (bs "k1")) (bs "T1") (.ok true) wSt)).2)).1 =
      (exOk (Decider.decide wCrypto wReq (some (bs "k1")) (bs "T1") (.ok true) wSt)).1 ∧
    (exOk (Decider.decide wCrypto wReq (some (bs "k1")) (bs "T2") (.ok true)
        (exOk (Decider.decide wCrypto wReq (some (bs "k1")) (bs "T1") (.ok true) wSt)).2)).2 =
      (exOk (Decider.decide wCrypto wReq (some (bs "k1")) (bs "T1") (.ok true) wSt)).2 :=
  claim_C4_sequential_idempotent wCrypto wReq wReq (bs "k1") (bs "T1") (bs "T2")
    (.ok true) (.ok true) wSt _ _ _ _ rfl rfl

/-- C5 (counterexample): a worker cycle over a ledger whose first row id is
2 — a gap at id 1, as `ON CONFLICT DO NOTHING` inserts leave behind —
produces a first anchor with `from_id = 2`, violating `from_id[0] = 1`
(and, after such a gap, `to_id + 1 = next from_id` likewise fails). -/
theorem claim_C5_counterexample :
    anchorsContiguous (anchorStep wCrypto [(2, bs "p")] []) = false ∧
    (anchorStep wCrypto [(2, bs "p")] []).map Anchor.from_id = [2] := by
  decide

/-- C5 (amended): over any sequence of id-sorted ledger snapshots the
anchors form well-formed, monotonically separated, non-overlapping ranges
(`from ≤ to` and `to < next.from`); when every snapshot's ids are exactly
consecutive from 1 the ranges are exactly contiguous: `from_id[0] = 1` and
`to_id + 1 = next from_id`. -/
theorem claim_C5_anchor_ranges :
    (∀ (C : Crypto) (snaps : List (List (Nat × Bytes))),
      (∀ L ∈ snaps, L.Pairwise (fun a b => a.1 < b.1)) →
      anchorsChain (runAnchors C snaps) = true) ∧
    (∀ (C : Crypto) (snaps : List (List Bytes)),
      anchorsContiguous (runAnchors C (snaps.map (idsFrom 1))) = true) :=
  ⟨runAnchors_chain, runAnchors_contig⟩

/-- C5 (witness): both parts of the amended statement at concrete
snapshots (a gapped sorted ledger, and a gapless one). -/
theorem claim_C5_witness :
    anchorsChain (runAnchors wCrypto [[(2, bs "a"), (5, bs "b")], [(7, bs "c")]]) = true ∧
    anchorsContiguous (runAnchors wCrypto ([[bs "a", bs "b"], [bs "c"]].map (idsFrom 1))) =
      true :=
  ⟨claim_C5_anchor_ranges.1 wCrypto [[(2, bs "a"), (5, bs "b")], [(7, bs "c")]] (by decide),
   claim_C5_anchor_ranges.2 wCrypto [[bs "a", bs "b"], [bs "c"]]⟩

/-- C6: `NEED_ONE_BIT` is always resolved to `PASS` or `HOLD_HUMAN` before
anything is signed or stored: every bundle a successful call commits to the
ledger carries decision `"PASS"` or `"HOLD_HUMAN"`, and on a cache miss so
does the emitted response. -/
theorem claim_C6_no_need_one_bit :
    ∀ (C : Crypto) (req : DecideIn) (idemKey : Option Bytes) (now : Bytes)
      (oracle : Except Unit Bool) (st : St) (r : Jv) (st' : St),
      Decider.decide C req idemKey now oracle st = .ok (r, st') →
      (∀ rw ∈ st'.ledger, rw ∈ st.ledger ∨
        objGet rw.2.bundle (bs "decision") = some (.str (bs "PASS")) ∨
        objGet rw.2.bundle (bs "decision") = some (.str (bs "HOLD_HUMAN"))) ∧
      (lookupB st.idem (effKey C req idemKey) = none →
        objGet r (bs "decision") = some (.str (bs "PASS")) ∨
        objGet r (bs "decision") = some (.str (bs "HOLD_HUMAN"))) := by
  intro C req idemKey now oracle st r st' h
  constructor
  · intro rw hrw
    rcases decide_ok_new_row C req idemKey now oracle st r st' h rw hrw with
      hm | ⟨d, obls, hdok, hb⟩
    · left
      exact hm
    · right
      rw [hb]
      rcases hdok with hd | hd
      · subst hd
        left
        rfl
      · subst hd
        right
        rfl
  · intro hmiss
    rw [decide_fresh_eq C req idemKey now oracle st hmiss] at h
    cases hf : Decider.decideFresh C req now oracle st (effKey C req idemKey) with
    | error e => rw [hf] at h; simp at h
    | ok p =>
      obtain ⟨out, row⟩ := p
      rw [hf] at h
      simp only [Except.ok.injEq, Prod.mk.injEq] at h
      obtain ⟨d, obls, sk, hres, hkr, hdok, hout, hrow⟩ :=
        decideFresh_spec C req now oracle st (effKey C req idemKey) out row hf
      rw [← h.1, hout]
      rcases hdok with hd | hd
      · subst hd
        left
        rfl
      · subst hd
        right
        rfl

/-- C6 (witness): the statement applied to a concrete cache-missing run
(an out-of-allowlist request, resolved to `HOLD_HUMAN`). -/
theorem claim_C6_witness :
    objGet (exOk (Decider.decide wCrypto wReq5k (some (bs "k2")) (bs "T9") (.ok true) wSt)).1
        (bs "decision") = some (.str (bs "PASS")) ∨
    objGet (exOk (Decider.decide wCrypto wReq5k (some (bs "k2")) (bs "T9") (.ok true) wSt)).1
        (bs "decision") = some (.str (bs "HOLD_HUMAN")) :=
  (claim_C6_no_need_one_bit wCrypto wReq5k (some (bs "k2")) (bs "T9") (.ok true) wSt
      (exOk (Decider.decide wCrypto wReq5k (some (bs "k2")) (bs "T9") (.ok true) wSt)).1
      (exOk (Decider.decide wCrypto wReq5k (some (bs "k2")) (bs "T9") (.ok true) wSt)).2
      rfl).2 (by decide)

/-- C7 (counterexample): on a bundle containing the non-ASCII codepoint
é (U+00E9) the two canonicalizations differ — `orjson` emits raw UTF-8
while stdlib `json.dumps` escapes to `é` — and the decider-side hash
of the orjson bytes differs from the attestor's `digest_hex` over the
stdlib bytes. -/
theorem claim_C7_counterexample :
    orjsonDumps (.obj [(bs "k", .str [233])]) ≠ stdlibDumps (.obj [(bs "k", .str [233])]) ∧
    wCrypto.sha256hex (orjsonDumps (.obj [(bs "k", .str [233])])) ≠
      (attestorSign wCrypto [7] (bs "ed25519:v1") (.obj [(bs "k", .str [233])])).digest_hex := by
  decide

/-- C7 (amended): on ASCII-only values — every bundle this pilot builds is
ASCII — the two canonical serializations agree byte for byte, and the
decider-side hash of the orjson bytes equals the attestor's `digest_hex`
over its stdlib canonicalization. -/
theorem claim_C7_ascii_canonical_agreement :
    ∀ (C : Crypto) (sk kid : Bytes) (v : Jv), asciiJv v = true →
      orjsonDumps v = stdlibDumps v ∧
      C.sha256hex (orjsonDumps v) = (attestorSign C sk kid v).digest_hex := by
  intro C sk kid v h
  refine ⟨orjson_eq_stdlib h, ?_⟩
  unfold attestorSign
  dsimp only
  rw [orjson_eq_stdlib h]

/-- C7 (witness): the amended statement at a concrete ASCII bundle. -/
theorem claim_C7_witness :
    orjsonDumps (.obj [(bs "amount", .num 100), (bs "country", .str (bs "US"))]) =
      stdlibDumps (.obj [(bs "amount", .num 100), (bs "country", .str (bs "US"))]) ∧
    wCrypto.sha256hex
        (orjsonDumps (.obj [(bs "amount", .num 100), (bs "country", .str (bs "US"))])) =
      (attestorSign wCrypto [7] (bs "ed25519:v1")
        (.obj [(bs "amount", .num 100), (bs "country", .str (bs "US"))])).digest_hex :=
  claim_C7_ascii_canonical_agreement wCrypto [7] (bs "ed25519:v1")
    (.obj [(bs "amount", .num 100), (bs "country", .str (bs "US"))]) (by decide)

/-- C8: certificate verification, in three parts.  (a) Every certificate a
cache-missing successful `decide` emits is accepted by `verify_jws` under
the active kid, and the recovered payload's `proof_id` equals the
response's `proof_id` (hypotheses: the keyring holds the active key, the
textual fields are ASCII, digests are ASCII, and signatures are bytes).
(b) `verify_jws` round-trips `jws_compact_sign`, recovering a canonical
(key-sorted) payload exactly.  (c) Altering the payload segment of a
compact JWS to any other byte string defeats verification, given that the
signature primitive is injective on messages. -/
theorem claim_C8_certificate_verification :
    (∀ (C : Crypto) (req : DecideIn) (k now : Bytes) (oracle : Except Unit Bool) (st : St)
      (sk : Bytes) (r : Jv) (st' : St),
      lookupB st.keyring st.activeKid = some sk →
      lookupB st.idem k = none →
      st.activeKid.all (· < 128) = true →
      now.all (· < 128) = true →
      st.params.kernel_id.all (· < 128) = true →
      st.params.param_hash.all (· < 128) = true →
      req.country.all (· < 128) = true →
      (∀ x, (C.sha256hex x).all (· < 128) = true) →
      (∀ pl : Jv, bytesB (C.edSign sk (signingInput st.activeKid pl))) →
      Decider.decide C req (some k) now oracle st = .ok (r, st') →
      ∃ pl, verify_jws C st.keyring (respCert r) = .valid st.activeKid pl ∧
        objGet pl (bs "proof_id") = some (.str (respProof r))) ∧
    (∀ (C : Crypto) (keyring : List (Bytes × Bytes)) (sk kid : Bytes) (p : Jv),
      lookupB keyring kid = some sk → kid.all (· < 128) = true →
      asciiJv p = true → bytesB (C.edSign sk (signingInput kid p)) → sortJv p = p →
      verify_jws C keyring (jws_compact_sign C p sk kid) = .valid kid p) ∧
    (∀ (C : Crypto) (keyring : List (Bytes × Bytes)) (sk kid : Bytes) (p : Jv) (p2 : Bytes),
      (∀ m1 m2, C.edSign sk m1 = C.edSign sk m2 → m1 = m2) →
      lookupB keyring kid = some sk → kid.all (· < 128) = true →
      bytesB (C.edSign sk (signingInput kid p)) →
      p2 ≠ b64e (orjsonDumps p) →
      ∀ kid2 pl, verify_jws C keyring
        ((b64e (orjsonDumps (jwsHeader kid)) ++ 46 :: p2) ++
          46 :: b64e (C.edSign sk (signingInput kid p))) ≠ .valid kid2 pl) := by
  refine ⟨?_, ?_, ?_⟩
  · intro C req k now oracle st sk r st' hkr hmiss hackid hnow hki hph hcountry hhex hsig h
    rw [decide_fresh_eq C req (some k) now oracle st hmiss] at h
    cases hf : Decider.decideFresh C req now oracle st (effKey C req (some k)) with
    | error e => rw [hf] at h; simp at h
    | ok p =>
      obtain ⟨out, row⟩ := p
      rw [hf] at h
      simp only [Except.ok.injEq, Prod.mk.injEq] at h
      obtain ⟨d, obls, sk2, hres, hkr2, hdok, hout, hrow⟩ :=
        decideFresh_spec C req now oracle st (effKey C req (some k)) out row hf
      have hsk2 : sk2 = sk := Option.some.inj (hkr2.symm.trans hkr)
      subst hsk2
      have hobls : obls.all (fun s => s.all (· < 128)) = true :=
        resolveBit_obls_ascii hres rfl
      refine ⟨sortJv (certPayload now d obls st.params.kernel_id st.params.param_hash req
        (C.sha256hex
          (orjsonDumps (mkBundle now d obls st.params.kernel_id st.params.param_hash req) ++
            124 :: b64std (C.edSign sk2
              (stdlibDumps
                (mkBundle now d obls st.params.kernel_id st.params.param_hash req)))))),
        ?_, ?_⟩
      · rw [← h.1, hout]
        exact verify_jws_sign C st.keyring sk2 st.activeKid _ hkr hackid
          (asciiJv_certPayload d hnow hki hph hcountry hobls (hhex _)) (hsig _)
      · rw [← h.1, hout]
        rfl
  · intro C keyring sk kid p hk hkid hp hsig hcanon
    have hv := verify_jws_sign C keyring sk kid p hk hkid hp hsig
    rw [hcanon] at hv
    exact hv
  · intro C keyring sk kid p p2 hinj hk hkid hsig hne
    exact verify_jws_tamper C keyring sk kid p p2 hinj hk hkid hsig hne

/-- C8 (witness): the three parts at concrete inputs — a full engine run
under the ASCII-digest crypto, a round-trip on a small canonical payload,
and a tampered payload segment. -/
theorem claim_C8_witness :
    (∃ pl, verify_jws w8Crypto wSt.keyring
        (respCert (exOk (Decider.decide w8Crypto wReq (some (bs "kc8")) (bs "T1") (.ok true)
          wSt)).1) = .valid wSt.activeKid pl ∧
      objGet pl (bs "proof_id") =
        some (.str (respProof (exOk (Decider.decide w8Crypto wReq (some (bs "kc8")) (bs "T1")
          (.ok true) wSt)).1))) ∧
    verify_jws w8Crypto wSt.keyring (jws_compact_sign w8Crypto w8p [7] (bs "ed25519:v1")) =
      .valid (bs "ed25519:v1") w8p ∧
    verify_jws w8Crypto wSt.keyring
        ((b64e (orjsonDumps (jwsHeader (bs "ed25519:v1"))) ++ 46 :: [46]) ++
          46 :: b64e (w8Crypto.edSign [7] (signingInput (bs "ed25519:v1") w8p))) ≠
      .valid (bs "ed25519:v1") w8p :=
  ⟨claim_C8_certificate_verification.1 w8Crypto wReq (bs "kc8") (bs "T1") (.ok true) wSt [7]
      (exOk (Decider.decide w8Crypto wReq (some (bs "kc8")) (bs "T1") (.ok true) wSt)).1
      (exOk (Decider.decide w8Crypto wReq (some (bs "kc8")) (bs "T1") (.ok true) wSt)).2
      (by decide) rfl (by decide) (by decide) (by decide) (by decide) (by decide)
      w8_hash_ascii w8_sig_bytes rfl,
   claim_C8_certificate_verification.2.1 w8Crypto wSt.keyring [7] (bs "ed25519:v1") w8p
      (by decide) (by decide) (by decide) (w8_sig_bytes w8p) (by decide),
   claim_C8_certificate_verification.2.2 w8Crypto wSt.keyring [7] (bs "ed25519:v1") w8p [46]
      (fun m1 m2 hh => List.append_cancel_left hh) (by decide) (by decide)
      (w8_sig_bytes w8p) (by decide) (bs "ed25519:v1") w8p⟩

/-- C9: the anchor worker's `merkle` refines the textbook construction —
hash each leaf, then repeatedly hash adjacent pairs, duplicating the last
node of an odd level — and on a single leaf the root is that leaf's
hash. -/
theorem claim_C9_merkle_refinement :
    (∀ (C : Crypto) (leaves : List Bytes), merkle C leaves = merkleSpec C leaves) ∧
    (∀ (C : Crypto) (l : Bytes), merkle C [l] = some (C.sha256hex l)) :=
  ⟨merkle_eq_spec, merkle_single⟩

/-- C10: the kernel decision is monotone in the amount — raising the
amount, all other arguments fixed, never lowers the severity in the order
`PASS < NEED_ONE_BIT < HOLD_HUMAN`. -/
theorem claim_C10_kernel_monotone :
    ∀ (p : Params) (country : Bytes) (ts recent a1 a2 : Int), a1 ≤ a2 →
      dOrder (decide_json p a1 country ts recent).decision ≤
        dOrder (decide_json p a2 country ts recent).decision :=
  fun p country ts recent _ _ h => decide_json_monotone p country ts recent h

/-- C10 (witness): the statement at the boundary pair 100 ≤ 2800 of the
pilot parameters (a weekday `PASS` against a `NEED_ONE_BIT`). -/
theorem claim_C10_witness :
    dOrder (decide_json wParams 100 (bs "US") 1758024000 0).decision ≤
      dOrder (decide_json wParams 2800 (bs "US") 1758024000 0).decision :=
  claim_C10_kernel_monotone wParams (bs "US") 1758024000 0 100 2800 (by decide)

end ContraMind
